import Mathlib

/-!
# Verification of the SwipeShelf backend recommendation core

Shallow embedding of the algorithmic core of the SwipeShelf backend
(`src/utils/genreMatch.ts`, `src/routes/recommendations.ts`,
`src/routes/search.ts`) together with proofs of the behavioural claims
about it.

Modelling conventions:
* JavaScript strings are modelled as Lean `String` / `List Char`; regular
  expression operations from the source are implemented character by
  character with the same semantics (documented at each definition).
* JavaScript numbers are modelled as `ℚ` (ratings, scores, weights: the code
  only builds them from decimal literals and compares/combines them
  arithmetically) and `Int`/`Nat` (identifiers, counts).
* JavaScript `Set`/`Map` are modelled as order-preserving lists
  (first-insertion order, `set` on an existing key updates in place), and
  as `Finset` where only membership matters.
* Asynchronous upstream calls are modelled by passing their outcomes as
  explicit values (`Except`/`Option` parameters).
-/

/-! ## A. Character primitives and the two tokenizers

`genreMatch.ts` (`tokenizeWords`) and `recommendations.ts` (`tokenize`)
both lowercase, replace characters outside `[a-z0-9]` by separators, split
on whitespace runs and keep tokens of length ≥ 3, but they do it with
different regular expressions:
* `tokenizeWords`: `.replace(/[^a-z0-9]+/g, " ").trim().split(/\s+/)`
* `tokenize`:      `.replace(/[^a-z0-9\s]/g, " ").split(/\s+/).map(trim)`
-/

/-- `[a-z0-9]` test used by both tokenizer regexes. -/
def isAlnumChar (c : Char) : Bool :=
  (('a' ≤ c) && (c ≤ 'z')) || (('0' ≤ c) && (c ≤ '9'))

/-- The characters matched by JavaScript's `\s` character class. -/
def jsWhitespaceChars : List Char :=
  [' ', '\t', '\n', '\x0b', '\x0c', '\r', ' ', ' ',
   ' ', ' ', ' ', ' ', ' ', ' ', ' ',
   ' ', ' ', ' ', ' ', ' ', ' ', ' ',
   ' ', '　', '﻿']

/-- Membership in JavaScript's `\s` class. -/
def isWsChar (c : Char) : Bool :=
  jsWhitespaceChars.any (fun d => c = d)

/-- `String.prototype.toLowerCase`, restricted to its effect on ASCII
letters (taxonomy names, titles and categories in this code base are
ASCII). -/
def jsLower (c : Char) : Char :=
  if ('A' ≤ c) && (c ≤ 'Z') then Char.ofNat (c.toNat + 32) else c

/-- `String.prototype.trim`: drop `\s` characters from both ends. -/
def trimChars (l : List Char) : List Char :=
  ((l.dropWhile isWsChar).reverse.dropWhile isWsChar).reverse

/-- Worker for `split(/\s+/)`: `cur` is the segment being accumulated
(reversed), `prevWs` records whether the previous character was part of a
whitespace run (so that a run produces a single boundary).  Mirrors the
JavaScript behaviour including the empty boundary segments produced when
the string starts or ends with whitespace. -/
def splitWsAux : List Char → List Char → Bool → List (List Char)
  | [], cur, _ => [cur.reverse]
  | c :: cs, cur, prevWs =>
    if isWsChar c then
      if prevWs then splitWsAux cs cur true
      else cur.reverse :: splitWsAux cs [] true
    else splitWsAux cs (c :: cur) false

/-- `String.prototype.split(/\s+/)`. -/
def splitWs (l : List Char) : List (List Char) :=
  splitWsAux l [] false

/-- `.replace(/[^a-z0-9]+/g, " ")` from `tokenizeWords`: each maximal run
of characters outside `[a-z0-9]` becomes a single space (`prevSep` records
whether the previous character was part of such a run). -/
def replaceNonAlnumRunsAux : List Char → Bool → List Char
  | [], _ => []
  | c :: cs, prevSep =>
    if isAlnumChar c then c :: replaceNonAlnumRunsAux cs false
    else if prevSep then replaceNonAlnumRunsAux cs true
    else ' ' :: replaceNonAlnumRunsAux cs true

/-- `.replace(/[^a-z0-9\s]/g, " ")` from `tokenize`: each single character
that is neither `[a-z0-9]` nor whitespace becomes a space; whitespace is
kept as-is. -/
def replaceNonAlnumKeepWs (l : List Char) : List Char :=
  l.map (fun c => if !isAlnumChar c && !isWsChar c then ' ' else c)

/-- `tokenizeWords` from `src/utils/genreMatch.ts` on character lists:
lowercase, collapse non-alphanumeric runs to spaces, trim, split on
whitespace, keep tokens of length ≥ 3.  Returns the token list (callers
wrap it in a `Set`). -/
def tokenizeWordsL (l : List Char) : List (List Char) :=
  (splitWs (trimChars (replaceNonAlnumRunsAux (l.map jsLower) false))).filter
    (fun t => decide (3 ≤ t.length))

/-- `tokenizeWords` on strings. -/
def tokenizeWords (s : String) : List (List Char) :=
  tokenizeWordsL s.data

/-- The token list built inside `tokenize` from
`src/routes/recommendations.ts` (before the final `new Set(...)`):
lowercase, replace non-alphanumeric non-whitespace characters by spaces,
split on whitespace, trim each piece, keep tokens of length ≥ 3. -/
def tokenizeL (l : List Char) : List (List Char) :=
  ((splitWs (replaceNonAlnumKeepWs (l.map jsLower))).map trimChars).filter
    (fun t => decide (3 ≤ t.length))

/-- `tokenize` from `src/routes/recommendations.ts`: the above token list
wrapped in a `Set` (modelled as `Finset`). -/
def tokenizeSet (s : String) : Finset (List Char) :=
  (tokenizeL s.data).toFinset

/-- Canonical form shared by both tokenizers: the maximal runs of
`[a-z0-9]` characters of a string (`cur` is the run being accumulated,
reversed). -/
def alnumRunsAux : List Char → List Char → List (List Char)
  | [], cur => if cur = [] then [] else [cur.reverse]
  | c :: cs, cur =>
    if isAlnumChar c then alnumRunsAux cs (c :: cur)
    else if cur = [] then alnumRunsAux cs []
    else cur.reverse :: alnumRunsAux cs []

/-- A character that is alphanumeric or whitespace (the only characters
left after either `replace`). -/
def sepNormalChar (c : Char) : Bool :=
  isAlnumChar c || isWsChar c

lemma isWs_not_alnum {c : Char} (h : isWsChar c = true) : isAlnumChar c = false := by
  rcases List.any_eq_true.mp h with ⟨d, hd, hcd⟩
  have hc : c = d := by simpa using hcd
  subst hc
  have hall : ∀ x ∈ jsWhitespaceChars, isAlnumChar x = false := by decide
  exact hall _ hd

lemma alnum_not_ws {c : Char} (h : isAlnumChar c = true) : isWsChar c = false := by
  cases hws : isWsChar c with
  | false => rfl
  | true => rw [isWs_not_alnum hws] at h; exact absurd h (by simp)

lemma sepNormal_resolve {c : Char} (h : sepNormalChar c = true)
    (hws : isWsChar c = false) : isAlnumChar c = true := by
  rw [sepNormalChar, hws] at h
  simpa using h

/-- On strings whose characters are all alphanumeric-or-whitespace, the
length-filtered segments of `split(/\s+/)` are exactly the length-filtered
maximal alphanumeric runs. -/
lemma splitWsAux_filter_eq_runs (m : List Char) :
    ∀ (cur : List Char) (pw : Bool),
      (∀ c ∈ m, sepNormalChar c = true) →
      (pw = true → cur = []) →
      (splitWsAux m cur pw).filter (fun t => decide (3 ≤ t.length)) =
        (alnumRunsAux m cur).filter (fun t => decide (3 ≤ t.length)) := by
  induction m with
  | nil =>
    intro cur pw _ _
    by_cases hcur : cur = []
    · subst hcur; simp [splitWsAux, alnumRunsAux]
    · simp [splitWsAux, alnumRunsAux, hcur]
  | cons c cs ih =>
    intro cur pw hm hpw
    have hm' : ∀ x ∈ cs, sepNormalChar x = true :=
      fun x hx => hm x (List.mem_cons_of_mem c hx)
    by_cases hws : isWsChar c = true
    · have halnum : isAlnumChar c = false := isWs_not_alnum hws
      cases pw with
      | true =>
        have hcur : cur = [] := hpw rfl
        subst hcur
        simp only [splitWsAux, alnumRunsAux, hws, halnum, if_true,
          Bool.false_eq_true, if_false, if_pos rfl]
        exact ih [] true hm' (fun _ => rfl)
      | false =>
        simp only [splitWsAux, alnumRunsAux, hws, halnum, if_true,
          Bool.false_eq_true, if_false]
        by_cases hcur : cur = []
        · subst hcur
          simp only [List.reverse_nil, List.filter_cons, if_pos rfl]
          have : decide (3 ≤ ([] : List Char).length) = false := by decide
          rw [this]
          exact ih [] true hm' (fun _ => rfl)
        · simp only [if_neg hcur, List.filter_cons]
          rw [ih [] true hm' (fun _ => rfl)]
    · have hal : isAlnumChar c = true :=
        sepNormal_resolve (hm c (List.mem_cons_self c cs)) (by simpa using hws)
      simp only [splitWsAux, alnumRunsAux, hal, if_true]
      rw [if_neg (by simpa using hws)]
      exact ih (c :: cur) false hm' (by simp)

/-- Segments produced by `split(/\s+/)` contain no whitespace characters. -/
lemma splitWsAux_no_ws (m : List Char) :
    ∀ (cur : List Char) (pw : Bool),
      (∀ c ∈ cur, isWsChar c = false) →
      ∀ t ∈ splitWsAux m cur pw, ∀ c ∈ t, isWsChar c = false := by
  induction m with
  | nil =>
    intro cur pw hcur t ht c hc
    simp only [splitWsAux, List.mem_singleton] at ht
    subst ht
    exact hcur c (List.mem_reverse.mp hc)
  | cons d ds ih =>
    intro cur pw hcur t ht c hc
    by_cases hws : isWsChar d = true
    · rw [splitWsAux, if_pos hws] at ht
      cases pw with
      | true =>
        rw [if_pos rfl] at ht
        exact ih cur true hcur t ht c hc
      | false =>
        rw [if_neg (by simp)] at ht
        rcases List.mem_cons.mp ht with h | h
        · subst h; exact hcur c (List.mem_reverse.mp hc)
        · exact ih [] true (by simp) t h c hc
    · rw [splitWsAux, if_neg hws] at ht
      refine ih (d :: cur) false ?_ t ht c hc
      intro x hx
      rcases List.mem_cons.mp hx with h | h
      · subst h; simpa using hws
      · exact hcur x h

lemma dropWhile_ws_eq_self {t : List Char} (h : ∀ c ∈ t, isWsChar c = false) :
    t.dropWhile isWsChar = t := by
  cases t with
  | nil => rfl
  | cons c cs =>
    rw [List.dropWhile_cons, if_neg]
    simp [h c (List.mem_cons_self c cs)]

lemma trimChars_eq_self {t : List Char} (h : ∀ c ∈ t, isWsChar c = false) :
    trimChars t = t := by
  rw [trimChars, dropWhile_ws_eq_self h, dropWhile_ws_eq_self, List.reverse_reverse]
  intro c hc
  exact h c (List.mem_reverse.mp hc)

lemma map_trim_id {L : List (List Char)} (h : ∀ t ∈ L, trimChars t = t) :
    L.map trimChars = L := by
  induction L with
  | nil => rfl
  | cons t ts ih =>
    rw [List.map_cons, h t (List.mem_cons_self t ts),
      ih (fun x hx => h x (List.mem_cons_of_mem t hx))]

lemma alnumRunsAux_cons_alnum {c : Char} {cs cur : List Char}
    (h : isAlnumChar c = true) :
    alnumRunsAux (c :: cs) cur = alnumRunsAux cs (c :: cur) := by
  rw [alnumRunsAux, if_pos h]

lemma alnumRunsAux_cons_sep_nil {c : Char} {cs : List Char}
    (h : isAlnumChar c = false) :
    alnumRunsAux (c :: cs) [] = alnumRunsAux cs [] := by
  rw [alnumRunsAux, if_neg (by simp [h]), if_pos rfl]

lemma alnumRunsAux_cons_sep {c : Char} {cs cur : List Char}
    (h : isAlnumChar c = false) (hcur : cur ≠ []) :
    alnumRunsAux (c :: cs) cur = cur.reverse :: alnumRunsAux cs [] := by
  rw [alnumRunsAux, if_neg (by simp [h]), if_neg hcur]

lemma replaceKeepWs_cons (c : Char) (cs : List Char) :
    replaceNonAlnumKeepWs (c :: cs) =
      (if !isAlnumChar c && !isWsChar c then ' ' else c) :: replaceNonAlnumKeepWs cs := rfl

/-- Turning single non-alphanumeric non-whitespace characters into spaces
does not change the alphanumeric runs. -/
lemma runs_replaceKeepWs (l : List Char) :
    ∀ cur : List Char,
      alnumRunsAux (replaceNonAlnumKeepWs l) cur = alnumRunsAux l cur := by
  induction l with
  | nil => intro cur; rfl
  | cons c cs ih =>
    intro cur
    rw [replaceKeepWs_cons]
    by_cases hal : isAlnumChar c = true
    · have hc : (if !isAlnumChar c && !isWsChar c then ' ' else c) = c := by
        rw [hal]; rfl
      rw [hc, alnumRunsAux_cons_alnum hal, alnumRunsAux_cons_alnum hal, ih]
    · rw [Bool.not_eq_true] at hal
      have hrepl : isAlnumChar (if !isAlnumChar c && !isWsChar c then ' ' else c) = false := by
        by_cases hws : isWsChar c = true
        · rw [if_neg (by rw [hal, hws]; simp)]
          exact isWs_not_alnum hws
        · rw [Bool.not_eq_true] at hws
          rw [if_pos (by rw [hal, hws]; rfl)]
          decide
      by_cases hcur : cur = []
      · subst hcur
        rw [alnumRunsAux_cons_sep_nil hrepl, alnumRunsAux_cons_sep_nil hal, ih]
      · rw [alnumRunsAux_cons_sep hrepl hcur, alnumRunsAux_cons_sep hal hcur, ih]

lemma replaceRuns_cons_alnum {c : Char} {cs : List Char}
    (h : isAlnumChar c = true) (pw : Bool) :
    replaceNonAlnumRunsAux (c :: cs) pw = c :: replaceNonAlnumRunsAux cs false := by
  rw [replaceNonAlnumRunsAux, if_pos h]

lemma replaceRuns_cons_sep_pw {c : Char} {cs : List Char}
    (h : isAlnumChar c = false) :
    replaceNonAlnumRunsAux (c :: cs) true = replaceNonAlnumRunsAux cs true := by
  rw [replaceNonAlnumRunsAux, if_neg (by simp [h]), if_pos rfl]

lemma replaceRuns_cons_sep {c : Char} {cs : List Char}
    (h : isAlnumChar c = false) :
    replaceNonAlnumRunsAux (c :: cs) false = ' ' :: replaceNonAlnumRunsAux cs true := by
  rw [replaceNonAlnumRunsAux, if_neg (by simp [h]), if_neg (by simp)]

/-- Collapsing non-alphanumeric runs into single spaces does not change the
alphanumeric runs. -/
lemma runs_replaceRuns (l : List Char) :
    ∀ (cur : List Char) (pw : Bool), (pw = true → cur = []) →
      alnumRunsAux (replaceNonAlnumRunsAux l pw) cur = alnumRunsAux l cur := by
  induction l with
  | nil => intro cur pw _; rfl
  | cons c cs ih =>
    intro cur pw hpw
    cases hal : isAlnumChar c with
    | true =>
      rw [replaceRuns_cons_alnum hal, alnumRunsAux_cons_alnum hal,
        alnumRunsAux_cons_alnum hal, ih (c :: cur) false (by simp)]
    | false =>
      cases pw with
      | true =>
        have hcur : cur = [] := hpw rfl
        subst hcur
        rw [replaceRuns_cons_sep_pw hal, alnumRunsAux_cons_sep_nil hal,
          ih [] true (fun _ => rfl)]
      | false =>
        by_cases hcur : cur = []
        · subst hcur
          rw [replaceRuns_cons_sep hal, alnumRunsAux_cons_sep_nil (c := ' ') (by decide),
            alnumRunsAux_cons_sep_nil hal, ih [] true (fun _ => rfl)]
        · rw [replaceRuns_cons_sep hal, alnumRunsAux_cons_sep (c := ' ') (by decide) hcur,
            alnumRunsAux_cons_sep hal hcur, ih [] true (fun _ => rfl)]

/-- An all-whitespace string has no alphanumeric runs beyond the pending one. -/
lemma runs_all_ws (s : List Char) :
    ∀ cur : List Char, (∀ c ∈ s, isWsChar c = true) →
      alnumRunsAux s cur = if cur = [] then [] else [cur.reverse] := by
  induction s with
  | nil => intro cur _; rfl
  | cons c cs ih =>
    intro cur hs
    have hws : isWsChar c = true := hs c (List.mem_cons_self c cs)
    have hs' : ∀ x ∈ cs, isWsChar x = true :=
      fun x hx => hs x (List.mem_cons_of_mem c hx)
    rw [alnumRunsAux, if_neg (by simp [isWs_not_alnum hws])]
    by_cases hcur : cur = []
    · rw [if_pos hcur, ih [] hs', if_pos rfl, if_pos hcur]
    · rw [if_neg hcur, ih [] hs', if_pos rfl, if_neg hcur]

/-- Appending a whitespace suffix does not change the alphanumeric runs. -/
lemma runs_append_ws (l : List Char) :
    ∀ (s : List Char) (cur : List Char), (∀ c ∈ s, isWsChar c = true) →
      alnumRunsAux (l ++ s) cur = alnumRunsAux l cur := by
  induction l with
  | nil =>
    intro s cur hs
    rw [List.nil_append, runs_all_ws s cur hs, alnumRunsAux]
  | cons c cs ih =>
    intro s cur hs
    rw [List.cons_append]
    cases hal : isAlnumChar c with
    | true =>
      rw [alnumRunsAux_cons_alnum hal, alnumRunsAux_cons_alnum hal, ih s (c :: cur) hs]
    | false =>
      by_cases hcur : cur = []
      · subst hcur
        rw [alnumRunsAux_cons_sep_nil hal, alnumRunsAux_cons_sep_nil hal, ih s [] hs]
      · rw [alnumRunsAux_cons_sep hal hcur, alnumRunsAux_cons_sep hal hcur, ih s [] hs]

/-- Dropping a whitespace prefix does not change the alphanumeric runs. -/
lemma runs_dropWhile_ws (l : List Char) :
    alnumRunsAux (l.dropWhile isWsChar) [] = alnumRunsAux l [] := by
  induction l with
  | nil => rfl
  | cons c cs ih =>
    rw [List.dropWhile_cons]
    by_cases hws : isWsChar c = true
    · rw [if_pos (by simpa using hws), ih, alnumRunsAux,
        if_neg (by simp [isWs_not_alnum hws]), if_pos rfl]
    · rw [if_neg (by simpa using hws)]

/-- `trim` does not change the alphanumeric runs. -/
lemma runs_trimChars (l : List Char) :
    alnumRunsAux (trimChars l) [] = alnumRunsAux l [] := by
  have h1 : alnumRunsAux (l.dropWhile isWsChar) [] = alnumRunsAux l [] :=
    runs_dropWhile_ws l
  set m1 := l.dropWhile isWsChar with hm1
  have hsplit : m1 = trimChars l ++ (m1.reverse.takeWhile isWsChar).reverse := by
    rw [trimChars, ← hm1]
    calc m1 = m1.reverse.reverse := (List.reverse_reverse m1).symm
    _ = (m1.reverse.takeWhile isWsChar ++ m1.reverse.dropWhile isWsChar).reverse := by
        rw [List.takeWhile_append_dropWhile]
    _ = (m1.reverse.dropWhile isWsChar).reverse ++ (m1.reverse.takeWhile isWsChar).reverse := by
        rw [List.reverse_append]
  have hws : ∀ c ∈ (m1.reverse.takeWhile isWsChar).reverse, isWsChar c = true := by
    intro c hc
    exact List.mem_takeWhile_imp (List.mem_reverse.mp hc)
  calc alnumRunsAux (trimChars l) []
      = alnumRunsAux (trimChars l ++ (m1.reverse.takeWhile isWsChar).reverse) [] :=
        (runs_append_ws _ _ [] hws).symm
    _ = alnumRunsAux m1 [] := by rw [← hsplit]
    _ = alnumRunsAux l [] := h1

/-- Every character in the output of `.replace(/[^a-z0-9]+/g, " ")` is
alphanumeric or whitespace. -/
lemma replaceRuns_sepNormal (l : List Char) :
    ∀ pw : Bool, ∀ c ∈ replaceNonAlnumRunsAux l pw, sepNormalChar c = true := by
  induction l with
  | nil => intro pw c hc; simp [replaceNonAlnumRunsAux] at hc
  | cons d ds ih =>
    intro pw c hc
    by_cases hal : isAlnumChar d = true
    · rw [replaceNonAlnumRunsAux, if_pos hal] at hc
      rcases List.mem_cons.mp hc with h | h
      · subst h; simp [sepNormalChar, hal]
      · exact ih false c h
    · rw [replaceNonAlnumRunsAux, if_neg (by simpa using hal)] at hc
      cases pw with
      | true => rw [if_pos rfl] at hc; exact ih true c hc
      | false =>
        rw [if_neg (by simp)] at hc
        rcases List.mem_cons.mp hc with h | h
        · subst h; decide
        · exact ih true c h

/-- Every character in the output of `.replace(/[^a-z0-9\s]/g, " ")` is
alphanumeric or whitespace. -/
lemma replaceKeepWs_sepNormal (l : List Char) :
    ∀ c ∈ replaceNonAlnumKeepWs l, sepNormalChar c = true := by
  intro c hc
  rw [replaceNonAlnumKeepWs] at hc
  rcases List.mem_map.mp hc with ⟨d, _, hd⟩
  by_cases hx : (!isAlnumChar d && !isWsChar d) = true
  · rw [if_pos hx] at hd; subst hd; decide
  · rw [if_neg hx] at hd
    subst hd
    rcases Bool.and_eq_false_iff.mp (Bool.not_eq_true _ ▸ hx) with h | h
    · simp only [Bool.not_eq_false'] at h; simp [sepNormalChar, h]
    · simp only [Bool.not_eq_false'] at h; simp [sepNormalChar, h]

lemma mem_trimChars {c : Char} {l : List Char} (h : c ∈ trimChars l) : c ∈ l := by
  rw [trimChars] at h
  have h1 := List.mem_reverse.mp h
  have h2 := (List.dropWhile_sublist (l := (l.dropWhile isWsChar).reverse)
    (p := isWsChar)).mem h1
  have h3 := List.mem_reverse.mp h2
  exact (List.dropWhile_sublist (l := l) (p := isWsChar)).mem h3

/-- `tokenizeWords` computes the length-filtered alphanumeric runs of the
lowercased input. -/
lemma tokenizeWordsL_eq_runs (l : List Char) :
    tokenizeWordsL l =
      (alnumRunsAux (l.map jsLower) []).filter (fun t => decide (3 ≤ t.length)) := by
  rw [tokenizeWordsL, splitWs]
  rw [splitWsAux_filter_eq_runs _ [] false ?hsep (fun h => by cases h)]
  case hsep =>
    intro c hc
    exact replaceRuns_sepNormal _ false c (mem_trimChars hc)
  rw [runs_trimChars, runs_replaceRuns _ [] false (fun h => by cases h)]

/-- `tokenize` computes the same length-filtered alphanumeric runs of the
lowercased input. -/
lemma tokenizeL_eq_runs (l : List Char) :
    tokenizeL l =
      (alnumRunsAux (l.map jsLower) []).filter (fun t => decide (3 ≤ t.length)) := by
  have hid : (splitWs (replaceNonAlnumKeepWs (l.map jsLower))).map trimChars =
      splitWs (replaceNonAlnumKeepWs (l.map jsLower)) := by
    apply map_trim_id
    intro t ht
    apply trimChars_eq_self
    intro c hc
    exact splitWsAux_no_ws _ [] false (by simp) t ht c hc
  rw [tokenizeL, hid, splitWs,
    splitWsAux_filter_eq_runs _ [] false
      (fun c hc => replaceKeepWs_sepNormal _ c hc) (fun _ => rfl),
    runs_replaceKeepWs]

example : tokenizeWords "Science-Fiction & Horror!" =
    ["science".data, "fiction".data, "horror".data] := by decide

example : tokenizeL "Science-Fiction & Horror!".data =
    ["science".data, "fiction".data, "horror".data] := by decide

/-- C7: the tokenizer used by the Shelf Similarity Index
(`tokenize` in `src/routes/recommendations.ts`) produces, on every input
string, the same token set as the §4.1 tokenizer
(`tokenizeWords` in `src/utils/genreMatch.ts`): the two are extensionally
equal as set-valued functions on strings. -/
theorem c7_tokenizer_equivalence (s : String) :
    tokenizeSet s = (tokenizeWords s).toFinset := by
  rw [tokenizeSet, tokenizeWords, tokenizeL_eq_runs, tokenizeWordsL_eq_runs]

/-! ## B. The Genre Taxonomy Matcher (`src/utils/genreMatch.ts`)

`splitGenreParts` splits a genre name with the regular expression
`/[/,&]|\band\b/i`; the scanner below walks the string once, trying the
alternatives of the regex at each position exactly as the JavaScript
engine does (single separator characters first, then a case-insensitive
`and` surrounded by word boundaries). -/

/-- JavaScript's `\w` class (used by `\b` word boundaries). -/
def isWordChar (c : Char) : Bool :=
  (('a' ≤ c) && (c ≤ 'z')) || (('A' ≤ c) && (c ≤ 'Z')) ||
    (('0' ≤ c) && (c ≤ '9')) || (c = '_')

/-- The `[/,&]` alternative of the split regex. -/
def isPartSeparatorChar (c : Char) : Bool :=
  (c = '/') || (c = ',') || (c = '&')

/-- `\b` holds before a (word) character when the previous character is
absent or not a word character. -/
def boundaryBefore : Option Char → Bool
  | none => true
  | some p => !isWordChar p

/-- `\b` holds after a (word) character when the next character is absent
or not a word character. -/
def boundaryAfterOk : List Char → Bool
  | [] => true
  | e :: _ => !isWordChar e

/-- Whether the `\band\b` alternative (case-insensitive `and` between word
boundaries) matches at a position whose character is `c`, previous
character `prev` and remaining input `n :: d :: rest`. -/
def andMatchesAt (prev : Option Char) (c n d : Char) (rest : List Char) : Bool :=
  (jsLower c = 'a') && boundaryBefore prev && (jsLower n = 'n') &&
    (jsLower d = 'd') && boundaryAfterOk rest

/-- Scanner for `split(/[/,&]|\band\b/i)`: `prev` is the character before
the current position, `cur` the segment accumulated so far (reversed).
At each position the regex alternatives are tried in order: a `[/,&]`
character splits, then a `\band\b` match (possible only when at least
three characters remain, hence the three patterns) splits consuming three
characters, otherwise the character is accumulated. -/
def splitGPAux : Option Char → List Char → List Char → List (List Char)
  | _, [], cur => [cur.reverse]
  | _, [c], cur =>
    if isPartSeparatorChar c then cur.reverse :: splitGPAux (some c) [] []
    else splitGPAux (some c) [] (c :: cur)
  | _, [c, n], cur =>
    if isPartSeparatorChar c then cur.reverse :: splitGPAux (some c) [n] []
    else splitGPAux (some c) [n] (c :: cur)
  | prev, c :: n :: d :: rest, cur =>
    if isPartSeparatorChar c then cur.reverse :: splitGPAux (some c) (n :: d :: rest) []
    else if andMatchesAt prev c n d rest then cur.reverse :: splitGPAux (some d) rest []
    else splitGPAux (some c) (n :: d :: rest) (c :: cur)

/-- `splitGenreParts` from `src/utils/genreMatch.ts`:
`name.split(/[/,&]|\band\b/i).map(p => p.trim()).filter(Boolean)`
(the `filter(Boolean)` drops empty strings). -/
def splitGenrePartsL (l : List Char) : List (List Char) :=
  ((splitGPAux none l []).map trimChars).filter (fun p => decide (p ≠ []))

example : splitGenrePartsL "Mystery/Thriller, Crime and Sand".data =
    ["Mystery".data, "Thriller".data, "Crime".data, "Sand".data] := by decide

example : splitGenrePartsL "band land".data = ["band land".data] := by decide

/-- `GenreLite` from `src/utils/genreMatch.ts` (`{id, name}`). -/
structure GenreLite where
  id : Int
  name : String
deriving DecidableEq

/-- The "full token set" of a genre: `new Set(tokenizeWords(g.name))`. -/
def genreFullTokens (g : GenreLite) : Finset (List Char) :=
  (tokenizeWordsL g.name.data).toFinset

/-- The non-empty category token sets
(`categories.map(c => new Set(tokenizeWords(c))).filter(s => s.size > 0)`). -/
def categoryTokenSets (categories : List String) : List (Finset (List Char)) :=
  (categories.map (fun c => (tokenizeWordsL c.data).toFinset)).filter
    (fun s => decide (0 < s.card))

/-- The non-empty per-part token sets of a genre
(`parts.map(p => new Set(tokenizeWords(p))).filter(s => s.size > 0)`). -/
def partTokenSets (g : GenreLite) : List (Finset (List Char)) :=
  ((splitGenrePartsL g.name.data).map (fun p => (tokenizeWordsL p).toFinset)).filter
    (fun s => decide (0 < s.card))

/-- `isTokenSubset` from `src/utils/genreMatch.ts`: every token of `a` is
in `b`. -/
def isTokenSubset (a b : Finset (List Char)) : Bool :=
  decide (a ⊆ b)

/-- The matching loop body: genre `g` matches some supplied category if one
of its part token sets is a subset of that category's token set. -/
def genreMatchesB (cats : List (Finset (List Char))) (g : GenreLite) : Bool :=
  cats.any (fun catTokens => (partTokenSets g).any (fun pt => isTokenSubset pt catTokens))

/-- Whether the loop records `g` in `matchedById`: the full token set is
non-empty (otherwise the loop `continue`s) and `g` matches some category. -/
def genreEnters (cats : List (Finset (List Char))) (g : GenreLite) : Bool :=
  decide (0 < (genreFullTokens g).card) && genreMatchesB cats g

/-- JavaScript `Map.set`: update the (unique) existing entry for the key in
place, otherwise append a new entry (`Map` iteration follows insertion
order). -/
def mapSet {κ α : Type} [DecidableEq κ] : List (κ × α) → κ → α → List (κ × α)
  | [], k, v => [(k, v)]
  | p :: m, k, v => if p.1 = k then (k, v) :: m else p :: mapSet m k v

/-- JavaScript `Map.get` (`none` models `undefined`). -/
def mapGet {κ α : Type} [DecidableEq κ] (m : List (κ × α)) (k : κ) : Option α :=
  (m.find? (fun p => decide (p.1 = k))).map (fun p => p.2)

/-- The two maps accumulated by `matchGenresFromCategories`'s genre loop. -/
structure MatchState where
  matchedById : List (Int × GenreLite)
  genreTokensById : List (Int × Finset (List Char))

/-- One iteration of the genre loop of `matchGenresFromCategories`
(lines 39–58): skip genres with an empty full token set, record the full
token set, and record the genre if it matches some category. -/
def processGenre (cats : List (Finset (List Char))) (st : MatchState) (g : GenreLite) :
    MatchState :=
  let fullTokens := genreFullTokens g
  if fullTokens.card = 0 then st
  else
    let st1 : MatchState := ⟨st.matchedById, mapSet st.genreTokensById g.id fullTokens⟩
    if genreMatchesB cats g then ⟨mapSet st1.matchedById g.id g, st1.genreTokensById⟩
    else st1

/-- State of both maps after the whole genre loop. -/
def buildMatchState (categories : List String) (genres : List GenreLite) : MatchState :=
  genres.foldl (processGenre (categoryTokenSets categories)) ⟨[], []⟩

/-- `matched = Array.from(matchedById.values())` (line 60): the raw,
pre-pruning match set in insertion order. -/
def matchedList (categories : List String) (genres : List GenreLite) : List GenreLite :=
  (buildMatchState categories genres).matchedById.map (fun p => p.2)

/-- The pruning test (lines 64–79) for one matched id `a`: some other
matched id `b` has a strictly larger recorded token set containing `a`'s
recorded token set (`continue`s translate to `false`/skips). -/
def shouldPruneB (tokensById : List (Int × Finset (List Char))) (matchedIds : List Int)
    (a : Int) : Bool :=
  match mapGet tokensById a with
  | none => false
  | some aTokens =>
    matchedIds.any (fun b =>
      if b = a then false
      else
        match mapGet tokensById b with
        | none => false
        | some bTokens =>
          if bTokens.card ≤ aTokens.card then false
          else isTokenSubset aTokens bTokens)

/-- `matchGenresFromCategories` from `src/utils/genreMatch.ts`: empty-input
guard, matching loop, pruning loop, and the final
`matched.filter(g => prunedIds.has(g.id))`.  The pruning loop only deletes
from `prunedIds` and its test reads only `matchedIds` and the token map,
so it is modelled by a filter. -/
def prunedIdsOf (categories : List String) (genres : List GenreLite) : List Int :=
  ((matchedList categories genres).map (fun g => g.id)).filter
    (fun a => !shouldPruneB (buildMatchState categories genres).genreTokensById
      ((matchedList categories genres).map (fun g => g.id)) a)

def matchGenresFromCategories (categories : List String) (genres : List GenreLite) :
    List GenreLite :=
  if categories.isEmpty || genres.isEmpty then []
  else (matchedList categories genres).filter
    (fun g => decide (g.id ∈ prunedIdsOf categories genres))

example : matchGenresFromCategories ["Science Fiction"]
    [⟨1, "Fiction"⟩, ⟨2, "Science Fiction"⟩] = [⟨2, "Science Fiction"⟩] := by decide

example : matchedList ["Science Fiction"] [⟨1, "Fiction"⟩, ⟨2, "Science Fiction"⟩] =
    [⟨1, "Fiction"⟩, ⟨2, "Science Fiction"⟩] := by decide

/-! ### Locating part tokens inside the full genre name

For C2 we must show a genre whose *part* has a non-empty token set is never
skipped by the `fullTokens.size === 0` guard: every part is a contiguous
piece of the name, and three consecutive alphanumeric characters in a
contiguous piece are three consecutive alphanumeric characters of the
whole name. -/

/-- `l` occurs contiguously inside `m`. -/
def withinOf (l m : List Char) : Prop := ∃ p s, m = p ++ l ++ s

lemma withinOf_trans {a b c : List Char} (h1 : withinOf a b) (h2 : withinOf b c) :
    withinOf a c := by
  rcases h2 with ⟨p2, s2, rfl⟩
  rcases h1 with ⟨p1, s1, rfl⟩
  exact ⟨p2 ++ p1, s1 ++ s2, by simp⟩

lemma withinOf_append_left (pre : List Char) {x m : List Char} (h : withinOf x m) :
    withinOf x (pre ++ m) := by
  rcases h with ⟨p, s, rfl⟩
  exact ⟨pre ++ p, s, by simp⟩

lemma withinOf_cons (c : Char) {x m : List Char} (h : withinOf x m) :
    withinOf x (c :: m) := by
  simpa using withinOf_append_left [c] h

lemma withinOf_map (f : Char → Char) {x m : List Char} (h : withinOf x m) :
    withinOf (x.map f) (m.map f) := by
  rcases h with ⟨p, s, rfl⟩
  exact ⟨p.map f, s.map f, by simp⟩

lemma withinOf_cons_elim {x : List Char} {c : Char} {m : List Char}
    (h : withinOf x (c :: m)) :
    (∃ s, c :: m = x ++ s) ∨ withinOf x m := by
  rcases h with ⟨p, s, hp⟩
  cases p with
  | nil => exact Or.inl ⟨s, by simpa using hp⟩
  | cons y p' =>
    right
    simp only [List.cons_append] at hp
    injection hp with h1 h2
    exact ⟨p', s, h2⟩

lemma length_three_form {x : List Char} (h : x.length = 3) :
    ∃ a b c, x = [a, b, c] := by
  cases x with
  | nil => simp at h
  | cons a x1 =>
    cases x1 with
    | nil => simp at h
    | cons b x2 =>
      cases x2 with
      | nil => simp at h
      | cons c x3 =>
        cases x3 with
        | nil => exact ⟨a, b, c, rfl⟩
        | cons d x4 => simp [List.length_cons] at h

lemma filter_cons_ne {α : Type} {p : α → Bool} {x : α} {xs : List α}
    (h : xs.filter p ≠ []) : (x :: xs).filter p ≠ [] := by
  rw [List.filter_cons]
  by_cases hx : p x = true
  · simp [hx]
  · simpa [hx] using h

/-- A pending run of length ≥ 3 always yields a kept token. -/
lemma runs_filter_ne_nil_of_cur (l : List Char) :
    ∀ cur : List Char, 3 ≤ cur.length →
      (alnumRunsAux l cur).filter (fun t => decide (3 ≤ t.length)) ≠ [] := by
  induction l with
  | nil =>
    intro cur h3
    have hcur : cur ≠ [] := by
      intro h; subst h; simp at h3
    rw [alnumRunsAux, if_neg hcur, List.filter_cons, if_pos (by simpa using h3)]
    simp
  | cons c cs ih =>
    intro cur h3
    by_cases hal : isAlnumChar c = true
    · rw [alnumRunsAux_cons_alnum hal]
      refine ih (c :: cur) ?_
      simp only [List.length_cons]
      omega
    · rw [Bool.not_eq_true] at hal
      have hcur : cur ≠ [] := by
        intro h; subst h; simp at h3
      rw [alnumRunsAux_cons_sep hal hcur, List.filter_cons, if_pos (by simpa using h3)]
      simp

/-- Three consecutive alphanumeric characters anywhere in the input yield a
kept token. -/
lemma runs_filter_ne_nil_of_sub (l : List Char) :
    ∀ cur : List Char,
      (∃ sub : List Char, withinOf sub l ∧ sub.length = 3 ∧
        (∀ c ∈ sub, isAlnumChar c = true)) →
      (alnumRunsAux l cur).filter (fun t => decide (3 ≤ t.length)) ≠ [] := by
  induction l with
  | nil =>
    rintro cur ⟨sub, ⟨p, s, hps⟩, hlen, _⟩
    have h1 := List.append_eq_nil.mp hps.symm
    have h2 := List.append_eq_nil.mp h1.1
    rw [h2.2] at hlen
    simp at hlen
  | cons c cs ih =>
    rintro cur ⟨sub, hw, hlen, halnum⟩
    rcases withinOf_cons_elim hw with ⟨s, hpre⟩ | hwcs
    · obtain ⟨a, b, e, rfl⟩ := length_three_form hlen
      simp only [List.cons_append, List.nil_append] at hpre
      injection hpre with h1 h2
      have ha := halnum a (by simp)
      have hb := halnum b (by simp)
      have he := halnum e (by simp)
      subst h1
      subst h2
      rw [alnumRunsAux_cons_alnum ha, alnumRunsAux_cons_alnum hb,
        alnumRunsAux_cons_alnum he]
      refine runs_filter_ne_nil_of_cur _ _ ?_
      simp only [List.length_cons]
      omega
    · by_cases hal : isAlnumChar c = true
      · rw [alnumRunsAux_cons_alnum hal]
        exact ih _ ⟨sub, hwcs, hlen, halnum⟩
      · rw [Bool.not_eq_true] at hal
        by_cases hcur : cur = []
        · subst hcur
          rw [alnumRunsAux_cons_sep_nil hal]
          exact ih [] ⟨sub, hwcs, hlen, halnum⟩
        · rw [alnumRunsAux_cons_sep hal hcur]
          exact filter_cons_ne (ih [] ⟨sub, hwcs, hlen, halnum⟩)

/-- Conversely, a kept token yields three consecutive alphanumeric
characters. -/
lemma runs_sub_of_filter_ne_nil (l : List Char) :
    ∀ cur : List Char, (∀ c ∈ cur, isAlnumChar c = true) →
      (alnumRunsAux l cur).filter (fun t => decide (3 ≤ t.length)) ≠ [] →
      ∃ sub : List Char, withinOf sub (cur.reverse ++ l) ∧ sub.length = 3 ∧
        (∀ c ∈ sub, isAlnumChar c = true) := by
  induction l with
  | nil =>
    rintro cur hcur h
    by_cases hnil : cur = []
    · subst hnil
      rw [alnumRunsAux] at h
      simp at h
    · rw [alnumRunsAux, if_neg hnil] at h
      have h3 : 3 ≤ cur.reverse.length := by
        by_contra hlt
        rw [List.filter_cons, if_neg (by simpa using hlt)] at h
        simp at h
      refine ⟨cur.reverse.take 3, ⟨[], cur.reverse.drop 3, ?_⟩, ?_, ?_⟩
      · rw [List.append_nil, List.nil_append, List.take_append_drop]
      · rw [List.length_take]
        omega
      · intro x hx
        exact hcur x (List.mem_reverse.mp ((List.take_sublist 3 _).subset hx))
  | cons c cs ih =>
    rintro cur hcur h
    by_cases hal : isAlnumChar c = true
    · rw [alnumRunsAux_cons_alnum hal] at h
      have hcur' : ∀ x ∈ c :: cur, isAlnumChar x = true := by
        intro x hx
        rcases List.mem_cons.mp hx with h1 | h1
        · subst h1; exact hal
        · exact hcur x h1
      obtain ⟨sub, hw, hlen, ha⟩ := ih (c :: cur) hcur' h
      refine ⟨sub, ?_, hlen, ha⟩
      simpa [List.reverse_cons, List.append_assoc] using hw
    · rw [Bool.not_eq_true] at hal
      by_cases hnil : cur = []
      · subst hnil
        rw [alnumRunsAux_cons_sep_nil hal] at h
        obtain ⟨sub, hw, hlen, ha⟩ := ih [] (by simp) h
        exact ⟨sub, by simpa using withinOf_cons c (by simpa using hw), hlen, ha⟩
      · rw [alnumRunsAux_cons_sep hal hnil, List.filter_cons] at h
        by_cases hkeep : decide (3 ≤ cur.reverse.length) = true
        · have h3 : 3 ≤ cur.reverse.length := by simpa using hkeep
          refine ⟨cur.reverse.take 3, ⟨[], cur.reverse.drop 3 ++ (c :: cs), ?_⟩, ?_, ?_⟩
          · rw [List.nil_append, ← List.append_assoc, List.take_append_drop]
          · rw [List.length_take]
            omega
          · intro x hx
            exact hcur x (List.mem_reverse.mp ((List.take_sublist 3 _).subset hx))
        · rw [if_neg hkeep] at h
          obtain ⟨sub, hw, hlen, ha⟩ := ih [] (by simp) h
          exact ⟨sub, withinOf_append_left _ (withinOf_cons c (by simpa using hw)),
            hlen, ha⟩

lemma dropWhile_eq_trim_append (l : List Char) :
    l.dropWhile isWsChar =
      trimChars l ++ ((l.dropWhile isWsChar).reverse.takeWhile isWsChar).reverse := by
  rw [trimChars]
  calc l.dropWhile isWsChar
      = (l.dropWhile isWsChar).reverse.reverse := by rw [List.reverse_reverse]
    _ = ((l.dropWhile isWsChar).reverse.takeWhile isWsChar ++
          (l.dropWhile isWsChar).reverse.dropWhile isWsChar).reverse := by
        rw [List.takeWhile_append_dropWhile]
    _ = ((l.dropWhile isWsChar).reverse.dropWhile isWsChar).reverse ++
          ((l.dropWhile isWsChar).reverse.takeWhile isWsChar).reverse := by
        rw [List.reverse_append]

lemma trimChars_within (t : List Char) : withinOf (trimChars t) t := by
  refine ⟨t.takeWhile isWsChar,
    ((t.dropWhile isWsChar).reverse.takeWhile isWsChar).reverse, ?_⟩
  conv_lhs => rw [← List.takeWhile_append_dropWhile (p := isWsChar) (l := t),
    dropWhile_eq_trim_append t]
  rw [List.append_assoc]

/-- Every segment produced by the `splitGenreParts` scanner occurs
contiguously in the scanned string. -/
lemma splitGPAux_within : ∀ (l : List Char) (prev : Option Char) (cur : List Char),
    ∀ t ∈ splitGPAux prev l cur, withinOf t (cur.reverse ++ l)
  | [], _, cur, t, ht => by
    simp only [splitGPAux, List.mem_singleton] at ht
    subst ht
    exact ⟨[], [], by simp⟩
  | [c], prev, cur, t, ht => by
    rw [splitGPAux] at ht
    by_cases hsep : isPartSeparatorChar c = true
    · rw [if_pos hsep] at ht
      rcases List.mem_cons.mp ht with h | h
      · subst h; exact ⟨[], [c], by simp⟩
      · have hrec := splitGPAux_within [] (some c) [] t h
        exact withinOf_trans (by simpa using hrec) ⟨cur.reverse ++ [c], [], by simp⟩
    · rw [if_neg hsep] at ht
      have hrec := splitGPAux_within [] (some c) (c :: cur) t ht
      simpa [List.reverse_cons, List.append_assoc] using hrec
  | [c, n], prev, cur, t, ht => by
    rw [splitGPAux] at ht
    by_cases hsep : isPartSeparatorChar c = true
    · rw [if_pos hsep] at ht
      rcases List.mem_cons.mp ht with h | h
      · subst h; exact ⟨[], [c, n], by simp⟩
      · have hrec := splitGPAux_within [n] (some c) [] t h
        refine withinOf_trans (by simpa using hrec) ⟨cur.reverse ++ [c], [], by simp⟩
    · rw [if_neg hsep] at ht
      have hrec := splitGPAux_within [n] (some c) (c :: cur) t ht
      simpa [List.reverse_cons, List.append_assoc] using hrec
  | c :: n :: d :: rest, prev, cur, t, ht => by
    rw [splitGPAux] at ht
    by_cases hsep : isPartSeparatorChar c = true
    · rw [if_pos hsep] at ht
      rcases List.mem_cons.mp ht with h | h
      · subst h; exact ⟨[], c :: n :: d :: rest, by simp⟩
      · have hrec := splitGPAux_within (n :: d :: rest) (some c) [] t h
        exact withinOf_trans (by simpa using hrec) ⟨cur.reverse ++ [c], [], by simp⟩
    · rw [if_neg hsep] at ht
      by_cases hand : andMatchesAt prev c n d rest = true
      · rw [if_pos hand] at ht
        rcases List.mem_cons.mp ht with h | h
        · subst h; exact ⟨[], c :: n :: d :: rest, by simp⟩
        · have hrec := splitGPAux_within rest (some d) [] t h
          exact withinOf_trans (by simpa using hrec)
            ⟨cur.reverse ++ [c, n, d], [], by simp⟩
      · rw [if_neg hand] at ht
        have hrec := splitGPAux_within (n :: d :: rest) (some c) (c :: cur) t ht
        simpa [List.reverse_cons, List.append_assoc] using hrec

/-- Every part of `splitGenreParts` occurs contiguously in the name. -/
lemma splitGenreParts_within {part l : List Char}
    (h : part ∈ splitGenrePartsL l) : withinOf part l := by
  rw [splitGenrePartsL] at h
  have h1 := (List.mem_filter.mp h).1
  rcases List.mem_map.mp h1 with ⟨seg, hseg, rfl⟩
  exact withinOf_trans (trimChars_within seg) (by simpa using splitGPAux_within l none [] seg hseg)

/-- If a part of the name has a token, the full name has a token. -/
lemma tokenizeWords_ne_nil_of_part {part name : List Char}
    (hw : withinOf part name) (h : tokenizeWordsL part ≠ []) :
    tokenizeWordsL name ≠ [] := by
  rw [tokenizeWordsL_eq_runs] at h ⊢
  obtain ⟨sub, hsub, hlen, halnum⟩ := runs_sub_of_filter_ne_nil _ [] (by simp) h
  refine runs_filter_ne_nil_of_sub _ [] ⟨sub, ?_, hlen, halnum⟩
  exact withinOf_trans (by simpa using hsub) (withinOf_map jsLower hw)

/-! ### Behaviour of the `Map` model -/

lemma mapGet_cons {κ α : Type} [DecidableEq κ] {q : κ × α} {m : List (κ × α)} {k : κ} :
    mapGet (q :: m) k = if q.1 = k then some q.2 else mapGet m k := by
  by_cases h : q.1 = k
  · rw [mapGet, List.find?_cons_of_pos _ (by simpa using h), if_pos h]
    rfl
  · rw [mapGet, List.find?_cons_of_neg _ (by simpa using h), if_neg h]
    rfl

lemma mapGet_mapSet_self {κ α : Type} [DecidableEq κ] (m : List (κ × α)) (k : κ) (v : α) :
    mapGet (mapSet m k v) k = some v := by
  induction m with
  | nil => simp [mapSet, mapGet_cons]
  | cons p m ih =>
    rw [mapSet]
    by_cases hp : p.1 = k
    · rw [if_pos hp, mapGet_cons, if_pos rfl]
    · rw [if_neg hp, mapGet_cons, if_neg hp, ih]

lemma mapGet_mapSet_ne {κ α : Type} [DecidableEq κ] (m : List (κ × α)) (k k' : κ) (v : α)
    (hne : k' ≠ k) : mapGet (mapSet m k v) k' = mapGet m k' := by
  induction m with
  | nil =>
    rw [mapSet, mapGet_cons, if_neg (fun h => hne h.symm)]
  | cons p m ih =>
    rw [mapSet]
    by_cases hp : p.1 = k
    · have h1 : ¬((k, v).1 = k') := fun h => hne h.symm
      have h2 : ¬(p.1 = k') := fun h => hne (h.symm.trans hp)
      rw [if_pos hp, mapGet_cons, if_neg h1, mapGet_cons, if_neg h2]
    · rw [if_neg hp, mapGet_cons, mapGet_cons, ih]

lemma mem_mapSet_elim {κ α : Type} [DecidableEq κ] {m : List (κ × α)} {k : κ} {v : α}
    {q : κ × α} (h : q ∈ mapSet m k v) : q = (k, v) ∨ q ∈ m := by
  induction m with
  | nil => simpa [mapSet] using h
  | cons p m ih =>
    rw [mapSet] at h
    by_cases hp : p.1 = k
    · rw [if_pos hp] at h
      rcases List.mem_cons.mp h with h1 | h1
      · exact Or.inl h1
      · exact Or.inr (List.mem_cons_of_mem p h1)
    · rw [if_neg hp] at h
      rcases List.mem_cons.mp h with h1 | h1
      · exact Or.inr (h1 ▸ List.mem_cons_self p m)
      · rcases ih h1 with h2 | h2
        · exact Or.inl h2
        · exact Or.inr (List.mem_cons_of_mem p h2)

lemma mapSet_mem_self {κ α : Type} [DecidableEq κ] (m : List (κ × α)) (k : κ) (v : α) :
    (k, v) ∈ mapSet m k v := by
  induction m with
  | nil => simp [mapSet]
  | cons p m ih =>
    rw [mapSet]
    by_cases hp : p.1 = k
    · rw [if_pos hp]
      exact List.mem_cons_self _ _
    · rw [if_neg hp]
      exact List.mem_cons_of_mem p ih

lemma mem_mapSet_of_ne {κ α : Type} [DecidableEq κ] {m : List (κ × α)} {k : κ} {v : α}
    {q : κ × α} (hq : q ∈ m) (hne : q.1 ≠ k) : q ∈ mapSet m k v := by
  induction m with
  | nil => simp at hq
  | cons p m ih =>
    rw [mapSet]
    rcases List.mem_cons.mp hq with h1 | h1
    · subst h1
      rw [if_neg hne]
      exact List.mem_cons_self _ _
    · by_cases hp : p.1 = k
      · rw [if_pos hp]
        exact List.mem_cons_of_mem _ h1
      · rw [if_neg hp]
        exact List.mem_cons_of_mem p (ih h1)

lemma mapSet_keys_nodup {κ α : Type} [DecidableEq κ] {m : List (κ × α)} (k : κ) (v : α)
    (h : (m.map Prod.fst).Nodup) : ((mapSet m k v).map Prod.fst).Nodup := by
  induction m with
  | nil => simp [mapSet]
  | cons p m ih =>
    rw [List.map_cons, List.nodup_cons] at h
    rw [mapSet]
    by_cases hp : p.1 = k
    · rw [if_pos hp, List.map_cons, List.nodup_cons]
      exact ⟨by simpa [hp] using h.1, h.2⟩
    · rw [if_neg hp, List.map_cons, List.nodup_cons]
      refine ⟨?_, ih h.2⟩
      intro hmem
      rcases List.mem_map.mp hmem with ⟨q, hq, hq1⟩
      rcases mem_mapSet_elim hq with h1 | h1
      · exact hp (by rw [← hq1, h1])
      · exact h.1 (hq1 ▸ List.mem_map_of_mem Prod.fst h1)

/-! ### Invariant of the matcher's genre loop

`hinj` below formalises "taxonomy genres": in the taxonomy the id is the
key, so no two distinct genres of the supplied list share an id. -/

def MatchInv (cats : List (Finset (List Char))) (done : List GenreLite) (st : MatchState) :
    Prop :=
  (∀ p ∈ st.matchedById, p.1 = p.2.id ∧ p.2 ∈ done ∧ genreEnters cats p.2 = true) ∧
  (∀ g ∈ done, genreEnters cats g = true → (g.id, g) ∈ st.matchedById) ∧
  (∀ g ∈ done, 0 < (genreFullTokens g).card →
      mapGet st.genreTokensById g.id = some (genreFullTokens g)) ∧
  (st.matchedById.map Prod.fst).Nodup

lemma processGenre_skip {cats : List (Finset (List Char))} {st : MatchState} {g : GenreLite}
    (h : (genreFullTokens g).card = 0) : processGenre cats st g = st := by
  simp [processGenre, h]

lemma processGenre_matched {cats : List (Finset (List Char))} {st : MatchState}
    {g : GenreLite} (h : (genreFullTokens g).card ≠ 0) (hm : genreMatchesB cats g = true) :
    processGenre cats st g =
      ⟨mapSet st.matchedById g.id g, mapSet st.genreTokensById g.id (genreFullTokens g)⟩ := by
  simp [processGenre, h, hm]

lemma processGenre_unmatched {cats : List (Finset (List Char))} {st : MatchState}
    {g : GenreLite} (h : (genreFullTokens g).card ≠ 0) (hm : genreMatchesB cats g = false) :
    processGenre cats st g =
      ⟨st.matchedById, mapSet st.genreTokensById g.id (genreFullTokens g)⟩ := by
  simp [processGenre, h, hm]

lemma matchInv_step (cats : List (Finset (List Char))) (done : List GenreLite)
    (g : GenreLite) (st : MatchState)
    (hinj : ∀ a ∈ done ++ [g], ∀ b ∈ done ++ [g], a.id = b.id → a = b)
    (hInv : MatchInv cats done st) :
    MatchInv cats (done ++ [g]) (processGenre cats st g) := by
  obtain ⟨h1, h2, h3, h4⟩ := hInv
  have hgmem : g ∈ done ++ [g] := List.mem_append_right done (by simp)
  by_cases hcard : (genreFullTokens g).card = 0
  · rw [processGenre_skip hcard]
    refine ⟨?_, ?_, ?_, h4⟩
    · intro p hp
      obtain ⟨hi, hd, he⟩ := h1 p hp
      exact ⟨hi, List.mem_append_left _ hd, he⟩
    · intro g' hg' he
      rcases List.mem_append.mp hg' with hd | hg1
      · exact h2 g' hd he
      · rw [List.mem_singleton] at hg1
        subst hg1
        rw [genreEnters] at he
        simp [hcard] at he
    · intro g' hg' hpos
      rcases List.mem_append.mp hg' with hd | hg1
      · exact h3 g' hd hpos
      · rw [List.mem_singleton] at hg1
        subst hg1
        omega
  · have htok : ∀ g' ∈ done ++ [g], 0 < (genreFullTokens g').card →
        mapGet (mapSet st.genreTokensById g.id (genreFullTokens g)) g'.id =
          some (genreFullTokens g') := by
      intro g' hg' hpos
      rcases List.mem_append.mp hg' with hd | hg1
      · by_cases hid : g'.id = g.id
        · have heq : g' = g := hinj g' (List.mem_append_left _ hd) g hgmem hid
          subst heq
          exact mapGet_mapSet_self _ _ _
        · rw [mapGet_mapSet_ne _ _ _ _ hid]
          exact h3 g' hd hpos
      · rw [List.mem_singleton] at hg1
        subst hg1
        exact mapGet_mapSet_self _ _ _
    by_cases hm : genreMatchesB cats g = true
    · rw [processGenre_matched hcard hm]
      have henters : genreEnters cats g = true := by
        rw [genreEnters, hm]
        simp [Nat.pos_of_ne_zero hcard]
      refine ⟨?_, ?_, htok, mapSet_keys_nodup _ _ h4⟩
      · intro p hp
        rcases mem_mapSet_elim hp with h | h
        · subst h
          exact ⟨rfl, hgmem, henters⟩
        · obtain ⟨hi, hd, he⟩ := h1 p h
          exact ⟨hi, List.mem_append_left _ hd, he⟩
      · intro g' hg' he
        rcases List.mem_append.mp hg' with hd | hg1
        · by_cases hid : g'.id = g.id
          · have heq : g' = g := hinj g' (List.mem_append_left _ hd) g hgmem hid
            subst heq
            exact mapSet_mem_self _ _ _
          · exact mem_mapSet_of_ne (h2 g' hd he) hid
        · rw [List.mem_singleton] at hg1
          subst hg1
          exact mapSet_mem_self _ _ _
    · rw [Bool.not_eq_true] at hm
      rw [processGenre_unmatched hcard hm]
      refine ⟨?_, ?_, htok, h4⟩
      · intro p hp
        obtain ⟨hi, hd, he⟩ := h1 p hp
        exact ⟨hi, List.mem_append_left _ hd, he⟩
      · intro g' hg' he
        rcases List.mem_append.mp hg' with hd | hg1
        · exact h2 g' hd he
        · rw [List.mem_singleton] at hg1
          subst hg1
          rw [genreEnters, hm] at he
          simp at he

lemma matchInv_fold (cats : List (Finset (List Char))) (gs : List GenreLite) :
    ∀ (done : List GenreLite) (st : MatchState),
      (∀ a ∈ done ++ gs, ∀ b ∈ done ++ gs, a.id = b.id → a = b) →
      MatchInv cats done st →
      MatchInv cats (done ++ gs) (gs.foldl (processGenre cats) st) := by
  induction gs with
  | nil =>
    intro done st _ hInv
    simpa using hInv
  | cons g gs' ih =>
    intro done st hinj hInv
    rw [List.foldl_cons]
    have hassoc : done ++ g :: gs' = (done ++ [g]) ++ gs' := by simp
    rw [hassoc] at hinj
    have hstep := matchInv_step cats done g st
      (fun a ha b hb => hinj a (List.mem_append_left _ ha) b (List.mem_append_left _ hb))
      hInv
    have := ih (done ++ [g]) (processGenre cats st g) hinj hstep
    rw [hassoc]
    exact this

lemma buildMatchState_inv (categories : List String) (genres : List GenreLite)
    (hinj : ∀ a ∈ genres, ∀ b ∈ genres, a.id = b.id → a = b) :
    MatchInv (categoryTokenSets categories) genres (buildMatchState categories genres) := by
  have h := matchInv_fold (categoryTokenSets categories) genres [] ⟨[], []⟩
    (by simpa using hinj) ⟨by simp, by simp, by simp, by simp⟩
  simpa [buildMatchState] using h

lemma matchedList_mem_iff {categories : List String} {genres : List GenreLite}
    (hinj : ∀ a ∈ genres, ∀ b ∈ genres, a.id = b.id → a = b) {A : GenreLite} :
    A ∈ matchedList categories genres ↔
      A ∈ genres ∧ genreEnters (categoryTokenSets categories) A = true := by
  obtain ⟨h1, h2, _, _⟩ := buildMatchState_inv categories genres hinj
  constructor
  · intro hA
    rcases List.mem_map.mp hA with ⟨p, hp, rfl⟩
    obtain ⟨_, hd, he⟩ := h1 p hp
    exact ⟨hd, he⟩
  · rintro ⟨hmem, he⟩
    exact List.mem_map.mpr ⟨(A.id, A), h2 A hmem he, rfl⟩

lemma matchedList_tokens {categories : List String} {genres : List GenreLite}
    (hinj : ∀ a ∈ genres, ∀ b ∈ genres, a.id = b.id → a = b) {A : GenreLite}
    (hA : A ∈ matchedList categories genres) :
    mapGet (buildMatchState categories genres).genreTokensById A.id =
      some (genreFullTokens A) := by
  obtain ⟨_, _, h3, _⟩ := buildMatchState_inv categories genres hinj
  have hm := (matchedList_mem_iff hinj).mp hA
  refine h3 A hm.1 ?_
  have he := hm.2
  rw [genreEnters] at he
  exact of_decide_eq_true (Bool.and_eq_true_iff.mp he).1

lemma shouldPruneB_eq_some {tokensById : List (Int × Finset (List Char))}
    {matchedIds : List Int} {a : Int} {aTokens : Finset (List Char)}
    (h : mapGet tokensById a = some aTokens) :
    shouldPruneB tokensById matchedIds a =
      matchedIds.any (fun b =>
        if b = a then false
        else
          match mapGet tokensById b with
          | none => false
          | some bTokens =>
            if bTokens.card ≤ aTokens.card then false
            else isTokenSubset aTokens bTokens) := by
  rw [shouldPruneB, h]

lemma shouldPrune_iff {categories : List String} {genres : List GenreLite}
    (hinj : ∀ a ∈ genres, ∀ b ∈ genres, a.id = b.id → a = b) {A : GenreLite}
    (hA : A ∈ matchedList categories genres) :
    (shouldPruneB (buildMatchState categories genres).genreTokensById
        ((matchedList categories genres).map (fun g => g.id)) A.id = true) ↔
      ∃ B ∈ matchedList categories genres, B ≠ A ∧
        (genreFullTokens A).card < (genreFullTokens B).card ∧
        genreFullTokens A ⊆ genreFullTokens B := by
  rw [shouldPruneB_eq_some (matchedList_tokens hinj hA)]
  constructor
  · intro h
    rcases List.any_eq_true.mp h with ⟨b, hb, hcond⟩
    rcases List.mem_map.mp hb with ⟨B, hB, rfl⟩
    by_cases hid : B.id = A.id
    · rw [if_pos hid] at hcond
      exact absurd hcond (by simp)
    · rw [if_neg hid, matchedList_tokens hinj hB] at hcond
      have hcond2 : (if (genreFullTokens B).card ≤ (genreFullTokens A).card then false
          else isTokenSubset (genreFullTokens A) (genreFullTokens B)) = true := hcond
      by_cases hle : (genreFullTokens B).card ≤ (genreFullTokens A).card
      · rw [if_pos hle] at hcond2
        exact absurd hcond2 (by simp)
      · rw [if_neg hle] at hcond2
        rw [isTokenSubset] at hcond2
        refine ⟨B, hB, ?_, by omega, of_decide_eq_true hcond2⟩
        intro heq
        exact hid (heq ▸ rfl)
  · rintro ⟨B, hB, hne, hcard, hsub⟩
    refine List.any_eq_true.mpr ⟨B.id, List.mem_map_of_mem _ hB, ?_⟩
    have hid : B.id ≠ A.id := by
      intro h
      have hBg := ((matchedList_mem_iff hinj).mp hB).1
      have hAg := ((matchedList_mem_iff hinj).mp hA).1
      exact hne (hinj B hBg A hAg h)
    rw [if_neg hid, matchedList_tokens hinj hB]
    show (if (genreFullTokens B).card ≤ (genreFullTokens A).card then false
      else isTokenSubset (genreFullTokens A) (genreFullTokens B)) = true
    rw [if_neg (by omega), isTokenSubset]
    exact decide_eq_true hsub

lemma mem_final_iff {categories : List String} {genres : List GenreLite}
    (hinj : ∀ a ∈ genres, ∀ b ∈ genres, a.id = b.id → a = b) {A : GenreLite}
    (hA : A ∈ matchedList categories genres) :
    A ∈ matchGenresFromCategories categories genres ↔
      shouldPruneB (buildMatchState categories genres).genreTokensById
        ((matchedList categories genres).map (fun g => g.id)) A.id = false := by
  have hm := (matchedList_mem_iff hinj).mp hA
  have hguard : (categories.isEmpty || genres.isEmpty) = false := by
    have hg : genres ≠ [] := List.ne_nil_of_mem hm.1
    have hc : categories ≠ [] := by
      intro hc
      subst hc
      have he := hm.2
      rw [genreEnters, genreMatchesB] at he
      simp [categoryTokenSets] at he
    have h1 : categories.isEmpty = false := by
      cases categories with
      | nil => exact absurd rfl hc
      | cons x xs => rfl
    have h2 : genres.isEmpty = false := by
      cases genres with
      | nil => exact absurd rfl hg
      | cons x xs => rfl
    rw [h1, h2]
    rfl
  rw [matchGenresFromCategories, if_neg (by rw [hguard]; exact Bool.false_ne_true),
    List.mem_filter]
  constructor
  · intro h
    have h2 := of_decide_eq_true h.2
    rw [prunedIdsOf, List.mem_filter] at h2
    simpa using h2.2
  · intro h
    refine ⟨hA, decide_eq_true ?_⟩
    rw [prunedIdsOf, List.mem_filter]
    exact ⟨List.mem_map_of_mem _ hA, by simp [h]⟩

lemma final_sub_matched {categories : List String} {genres : List GenreLite} {A : GenreLite}
    (hA : A ∈ matchGenresFromCategories categories genres) :
    A ∈ matchedList categories genres := by
  rw [matchGenresFromCategories] at hA
  by_cases hg : (categories.isEmpty || genres.isEmpty) = true
  · rw [if_pos hg] at hA
    simp at hA
  · rw [if_neg hg] at hA
    exact (List.mem_filter.mp hA).1

/-- C1: for category lists and taxonomy genre lists (distinct genres have
distinct ids), a matched genre `A` is excluded from the final result of
`matchGenresFromCategories` exactly when some other matched genre `B` has a
strictly larger full token set that contains `A`'s full token set (so
equal-size matched genres are never pruned against each other), and the
final result never contains both a genre and a strictly more general
matched genre. -/
theorem c1_pruning_law (categories : List String) (genres : List GenreLite)
    (hinj : ∀ a ∈ genres, ∀ b ∈ genres, a.id = b.id → a = b) :
    (∀ A ∈ matchedList categories genres,
        (A ∉ matchGenresFromCategories categories genres ↔
          ∃ B ∈ matchedList categories genres, B ≠ A ∧
            (genreFullTokens A).card < (genreFullTokens B).card ∧
            genreFullTokens A ⊆ genreFullTokens B)) ∧
    (∀ A ∈ matchGenresFromCategories categories genres,
        ∀ B ∈ matchGenresFromCategories categories genres,
          ¬(genreFullTokens A ⊂ genreFullTokens B)) := by
  have hpart1 : ∀ A ∈ matchedList categories genres,
      (A ∉ matchGenresFromCategories categories genres ↔
        ∃ B ∈ matchedList categories genres, B ≠ A ∧
          (genreFullTokens A).card < (genreFullTokens B).card ∧
          genreFullTokens A ⊆ genreFullTokens B) := by
    intro A hA
    have hiff := mem_final_iff hinj hA
    have hpr := shouldPrune_iff hinj hA
    constructor
    · intro hnot
      cases hb : shouldPruneB (buildMatchState categories genres).genreTokensById
          ((matchedList categories genres).map (fun g => g.id)) A.id with
      | false => exact absurd (hiff.mpr hb) hnot
      | true => exact hpr.mp hb
    · intro hex hmem
      have hfalse := hiff.mp hmem
      have htrue := hpr.mpr hex
      rw [htrue] at hfalse
      simp at hfalse
  refine ⟨hpart1, ?_⟩
  intro A hAf B hBf hss
  have hA := final_sub_matched hAf
  have hB := final_sub_matched hBf
  have hne : B ≠ A := by
    intro h
    subst h
    exact ssubset_irrefl _ hss
  exact absurd hAf
    (by
      have := (hpart1 A hA).mpr ⟨B, hB, hne, Finset.card_lt_card hss, hss.subset⟩
      simpa using this)

/-- Witness for C1 at the spec's Scenario A: categories
`["Science Fiction"]`, taxonomy `[{1, Fiction}, {2, Science Fiction}]` —
`Fiction` is matched but pruned from the final result. -/
theorem c1_pruning_law_witness :
    (⟨1, "Fiction"⟩ : GenreLite) ∉
      matchGenresFromCategories ["Science Fiction"]
        [⟨1, "Fiction"⟩, ⟨2, "Science Fiction"⟩] := by
  have h := (c1_pruning_law ["Science Fiction"] [⟨1, "Fiction"⟩, ⟨2, "Science Fiction"⟩]
    (by decide)).1 ⟨1, "Fiction"⟩ (by decide)
  exact h.mpr ⟨⟨2, "Science Fiction"⟩, by decide, by decide, by decide, by decide⟩

/-- C2: for taxonomy genre lists (distinct genres have distinct ids), if
some decomposed part of a genre's name has a non-empty token set contained
in the token set of some supplied category, the genre is in the raw
(pre-pruning) match set; tokens shorter than 3 characters never exist, and
an empty category list or an empty genre list yields an empty result. -/
theorem c2_raw_matching :
    (∀ (categories : List String) (genres : List GenreLite) (G : GenreLite),
        (∀ a ∈ genres, ∀ b ∈ genres, a.id = b.id → a = b) →
        G ∈ genres →
        (∃ part ∈ splitGenrePartsL G.name.data,
            (tokenizeWordsL part).toFinset ≠ ∅ ∧
            ∃ C ∈ categories,
              (tokenizeWordsL part).toFinset ⊆ (tokenizeWordsL C.data).toFinset) →
        G ∈ matchedList categories genres) ∧
    (∀ s : List Char, ∀ t ∈ tokenizeWordsL s, 3 ≤ t.length) ∧
    (∀ genres : List GenreLite, matchGenresFromCategories [] genres = []) ∧
    (∀ categories : List String, matchGenresFromCategories categories [] = []) := by
  refine ⟨?_, ?_, ?_, ?_⟩
  · rintro categories genres G hinj hG ⟨part, hpart, hne, C, hC, hsub⟩
    have hpartne : (tokenizeWordsL part).toFinset.Nonempty :=
      Finset.nonempty_iff_ne_empty.mpr hne
    refine (matchedList_mem_iff hinj).mpr ⟨hG, ?_⟩
    rw [genreEnters]
    refine Bool.and_eq_true_iff.mpr ⟨?_, ?_⟩
    · have hlistne : tokenizeWordsL part ≠ [] := by
        intro h
        exact hne (by simp [h])
      have hfullne : tokenizeWordsL G.name.data ≠ [] :=
        tokenizeWords_ne_nil_of_part (splitGenreParts_within hpart) hlistne
      apply decide_eq_true
      rw [genreFullTokens, Finset.card_pos, Finset.nonempty_iff_ne_empty]
      intro h
      exact hfullne ((List.toFinset_eq_empty_iff _).mp h)
    · rw [genreMatchesB]
      refine List.any_eq_true.mpr ⟨(tokenizeWordsL C.data).toFinset, ?_, ?_⟩
      · rw [categoryTokenSets, List.mem_filter]
        refine ⟨List.mem_map_of_mem _ hC, decide_eq_true ?_⟩
        rw [Finset.card_pos]
        obtain ⟨x, hx⟩ := hpartne
        exact ⟨x, hsub hx⟩
      · refine List.any_eq_true.mpr ⟨(tokenizeWordsL part).toFinset, ?_, ?_⟩
        · rw [partTokenSets, List.mem_filter]
          exact ⟨List.mem_map_of_mem _ hpart,
            decide_eq_true (Finset.card_pos.mpr hpartne)⟩
        · rw [isTokenSubset]
          exact decide_eq_true hsub
  · intro s t ht
    rw [tokenizeWordsL] at ht
    simpa using (List.mem_filter.mp ht).2
  · intro genres
    rfl
  · intro categories
    rw [matchGenresFromCategories, if_pos (by simp)]

/-- Witness for C2: the part `"Science Fiction"` of genre
`{2, Science Fiction}` has a non-empty token set contained in the supplied
category's token set, so the genre is in the raw match set. -/
theorem c2_raw_matching_witness :
    (⟨2, "Science Fiction"⟩ : GenreLite) ∈
      matchedList ["Science Fiction"] [⟨1, "Fiction"⟩, ⟨2, "Science Fiction"⟩] := by
  refine c2_raw_matching.1 ["Science Fiction"] [⟨1, "Fiction"⟩, ⟨2, "Science Fiction"⟩]
    ⟨2, "Science Fiction"⟩ (by decide) (by decide) ?_
  exact ⟨"Science Fiction".data, by decide, by decide, "Science Fiction", by decide,
    by decide⟩

/-! ## C. Candidate aggregation: canonical keys and merge-on-collision
(`src/routes/recommendations.ts`) -/

/-- `CandidateBook` from `src/routes/recommendations.ts` (lines 12–26).
`averageRating` is a JavaScript number built from API literals, modelled
as `ℚ`; `description.length` comparisons use the character count. -/
structure CandidateBook where
  title : String
  authors : String
  publishedDate : Option Int
  isbn : Option String
  coverUrl : String
  googleBooksId : String
  description : String
  averageRating : ℚ
  categories : List String
  sourceGenreIds : List Int
  sourceGenreNames : List String
deriving DecidableEq

/-- One step of building `Array.from(new Set(...))`. -/
def insertIfAbsent {α : Type} [DecidableEq α] (l : List α) (x : α) : List α :=
  if x ∈ l then l else l ++ [x]

/-- `Array.from(new Set(l))`: first occurrences of `l` in order. -/
def jsSetOfList {α : Type} [DecidableEq α] (l : List α) : List α :=
  l.foldl insertIfAbsent []

/-- `addSourceGenre` (lines 201–210).  `if (!genreId) return` models the
falsiness of the id 0; a falsy (empty) name is likewise not added. -/
def addSourceGenre (candidate : CandidateBook) (genreId : Int) (genreName : String) :
    CandidateBook :=
  if genreId = 0 then candidate
  else
    { candidate with
      sourceGenreIds := jsSetOfList (candidate.sourceGenreIds ++ [genreId]),
      sourceGenreNames :=
        if genreName = "" then jsSetOfList candidate.sourceGenreNames
        else jsSetOfList (candidate.sourceGenreNames ++ [genreName]) }

/-- `.replace(/\s+/g, " ")`: collapse whitespace runs to single spaces. -/
def collapseWsAux : List Char → Bool → List Char
  | [], _ => []
  | c :: cs, prevWs =>
    if isWsChar c then
      if prevWs then collapseWsAux cs true else ' ' :: collapseWsAux cs true
    else c :: collapseWsAux cs false

/-- `normalizeKeyPart` (lines 157–162): lowercase, trim, collapse inner
whitespace. -/
def normalizeKeyPart (value : List Char) : List Char :=
  collapseWsAux (trimChars (value.map jsLower)) false

/-- `normalizedCandidateKey` (lines 164–170): `title|firstAuthor`, falling
back to `title|unknown-author`, falling back to `id|googleBooksId`
(`authors.split(",")[0]` is the prefix before the first comma). -/
def normalizedCandidateKey (book : CandidateBook) : List Char :=
  let title := normalizeKeyPart book.title.data
  let author := normalizeKeyPart (book.authors.data.takeWhile (fun c => c ≠ ','))
  if title ≠ [] ∧ author ≠ [] then title ++ '|' :: author
  else if title ≠ [] then title ++ '|' :: "unknown-author".data
  else 'i' :: 'd' :: '|' :: book.googleBooksId.data

/-- The merge-on-collision rule (lines 481–514): add the incoming source
genre to the kept record, then replace the kept record by the incoming one
(carrying the merged source-genre sets along) exactly when the incoming
rating is strictly higher, or the ratings are equal and the incoming
description is strictly longer. -/
def mergeOnCollision (existingCandidate candidate : CandidateBook) (genreId : Int)
    (genreName : String) : CandidateBook :=
  let existing1 := addSourceGenre existingCandidate genreId genreName
  if candidate.averageRating > existing1.averageRating ∨
      (candidate.averageRating = existing1.averageRating ∧
        candidate.description.length > existing1.description.length) then
    { candidate with
      sourceGenreIds := jsSetOfList (existing1.sourceGenreIds ++ candidate.sourceGenreIds),
      sourceGenreNames :=
        jsSetOfList (existing1.sourceGenreNames ++ candidate.sourceGenreNames) }
  else existing1

/-- Lines 468–473: a fetched book enters the loop with fresh source-genre
sets holding only the genre whose query produced it. -/
def freshCandidate (book : CandidateBook) (genreId : Int) (genreName : String) :
    CandidateBook :=
  addSourceGenre { book with sourceGenreIds := [], sourceGenreNames := [] } genreId genreName

/-- Aggregating exactly two colliding raw candidates in the given order:
the first becomes the map entry, the second collides and is merged. -/
def aggregateTwo (x : CandidateBook) (gx : Int) (gnx : String)
    (y : CandidateBook) (gy : Int) (gny : String) : CandidateBook :=
  mergeOnCollision (freshCandidate x gx gnx) (freshCandidate y gy gny) gy gny

/-- The descriptive (non-source-genre) fields of a candidate. -/
structure DescFields where
  title : String
  authors : String
  publishedDate : Option Int
  isbn : Option String
  coverUrl : String
  googleBooksId : String
  description : String
  averageRating : ℚ
  categories : List String
deriving DecidableEq

/-- Projection of a candidate onto its descriptive fields. -/
def descFields (c : CandidateBook) : DescFields :=
  ⟨c.title, c.authors, c.publishedDate, c.isbn, c.coverUrl, c.googleBooksId,
   c.description, c.averageRating, c.categories⟩

lemma jsSetOfList_toFinset {α : Type} [DecidableEq α] (l : List α) :
    (jsSetOfList l).toFinset = l.toFinset := by
  suffices h : ∀ l acc : List α,
      (List.foldl insertIfAbsent acc l).toFinset = acc.toFinset ∪ l.toFinset by
    simpa using h l []
  intro l
  induction l with
  | nil => intro acc; simp
  | cons x xs ih =>
    intro acc
    rw [List.foldl_cons, ih, insertIfAbsent]
    by_cases hx : x ∈ acc
    · rw [if_pos hx]
      ext a
      simp only [Finset.mem_union, List.mem_toFinset, List.mem_cons]
      constructor
      · rintro (h | h)
        · exact Or.inl h
        · exact Or.inr (Or.inr h)
      · rintro (h | h | h)
        · exact Or.inl h
        · exact Or.inl (h ▸ hx)
        · exact Or.inr h
    · rw [if_neg hx]
      ext a
      simp only [Finset.mem_union, List.mem_toFinset, List.mem_cons, List.mem_append,
        List.mem_singleton]
      tauto

lemma descFields_addSourceGenre (c : CandidateBook) (gid : Int) (gname : String) :
    descFields (addSourceGenre c gid gname) = descFields c := by
  rw [addSourceGenre]
  by_cases h : gid = 0
  · rw [if_pos h]
  · rw [if_neg h]
    rfl

lemma rating_addSourceGenre (c : CandidateBook) (gid : Int) (gname : String) :
    (addSourceGenre c gid gname).averageRating = c.averageRating := by
  rw [addSourceGenre]
  by_cases h : gid = 0
  · rw [if_pos h]
  · rw [if_neg h]

lemma description_addSourceGenre (c : CandidateBook) (gid : Int) (gname : String) :
    (addSourceGenre c gid gname).description = c.description := by
  rw [addSourceGenre]
  by_cases h : gid = 0
  · rw [if_pos h]
  · rw [if_neg h]

lemma descFields_freshCandidate (b : CandidateBook) (gid : Int) (gname : String) :
    descFields (freshCandidate b gid gname) = descFields b := by
  rw [freshCandidate, descFields_addSourceGenre]
  rfl

lemma rating_freshCandidate (b : CandidateBook) (gid : Int) (gname : String) :
    (freshCandidate b gid gname).averageRating = b.averageRating := by
  rw [freshCandidate, rating_addSourceGenre]

lemma description_freshCandidate (b : CandidateBook) (gid : Int) (gname : String) :
    (freshCandidate b gid gname).description = b.description := by
  rw [freshCandidate, description_addSourceGenre]

lemma ids_addSourceGenre_toFinset (c : CandidateBook) (gid : Int) (gname : String) :
    (addSourceGenre c gid gname).sourceGenreIds.toFinset =
      if gid = 0 then c.sourceGenreIds.toFinset
      else insert gid c.sourceGenreIds.toFinset := by
  rw [addSourceGenre]
  by_cases h : gid = 0
  · rw [if_pos h, if_pos h]
  · rw [if_neg h, if_neg h]
    show (jsSetOfList (c.sourceGenreIds ++ [gid])).toFinset = _
    rw [jsSetOfList_toFinset, List.toFinset_append]
    ext a
    simp only [Finset.mem_union, List.mem_toFinset, Finset.mem_insert, List.mem_singleton]
    tauto

lemma ids_freshCandidate_toFinset (b : CandidateBook) (gid : Int) (gname : String) :
    (freshCandidate b gid gname).sourceGenreIds.toFinset =
      if gid = 0 then ∅ else {gid} := by
  rw [freshCandidate, ids_addSourceGenre_toFinset]
  by_cases h : gid = 0
  · rw [if_pos h, if_pos h]
    rfl
  · rw [if_neg h, if_neg h]
    rfl

lemma descFields_mergeOnCollision (e c : CandidateBook) (gid : Int) (gname : String) :
    descFields (mergeOnCollision e c gid gname) =
      if c.averageRating > e.averageRating ∨
          (c.averageRating = e.averageRating ∧
            c.description.length > e.description.length)
      then descFields c else descFields e := by
  have hrat := rating_addSourceGenre e gid gname
  have hdesc := description_addSourceGenre e gid gname
  simp only [mergeOnCollision, hrat, hdesc]
  split
  · rfl
  · exact descFields_addSourceGenre e gid gname

lemma rating_mergeOnCollision (e c : CandidateBook) (gid : Int) (gname : String) :
    (mergeOnCollision e c gid gname).averageRating =
      if c.averageRating > e.averageRating ∨
          (c.averageRating = e.averageRating ∧
            c.description.length > e.description.length)
      then c.averageRating else e.averageRating := by
  have hrat := rating_addSourceGenre e gid gname
  have hdesc := description_addSourceGenre e gid gname
  simp only [mergeOnCollision, hrat, hdesc]
  split
  · rfl
  · exact hrat

lemma description_mergeOnCollision (e c : CandidateBook) (gid : Int) (gname : String) :
    (mergeOnCollision e c gid gname).description =
      if c.averageRating > e.averageRating ∨
          (c.averageRating = e.averageRating ∧
            c.description.length > e.description.length)
      then c.description else e.description := by
  have hrat := rating_addSourceGenre e gid gname
  have hdesc := description_addSourceGenre e gid gname
  simp only [mergeOnCollision, hrat, hdesc]
  split
  · rfl
  · exact hdesc

lemma descFields_aggregateTwo (x : CandidateBook) (gx : Int) (gnx : String)
    (y : CandidateBook) (gy : Int) (gny : String) :
    descFields (aggregateTwo x gx gnx y gy gny) =
      if y.averageRating > x.averageRating ∨
          (y.averageRating = x.averageRating ∧
            y.description.length > x.description.length)
      then descFields y else descFields x := by
  rw [aggregateTwo, descFields_mergeOnCollision, rating_freshCandidate,
    rating_freshCandidate, description_freshCandidate, description_freshCandidate,
    descFields_freshCandidate, descFields_freshCandidate]

lemma ids_aggregateTwo (x : CandidateBook) (gx : Int) (gnx : String)
    (y : CandidateBook) (gy : Int) (gny : String) :
    (aggregateTwo x gx gnx y gy gny).sourceGenreIds.toFinset =
      (if gx = 0 then (∅ : Finset Int) else {gx}) ∪ (if gy = 0 then ∅ else {gy}) := by
  rw [aggregateTwo]
  simp only [mergeOnCollision]
  split
  · show (jsSetOfList ((addSourceGenre (freshCandidate x gx gnx) gy gny).sourceGenreIds ++
        (freshCandidate y gy gny).sourceGenreIds)).toFinset = _
    rw [jsSetOfList_toFinset, List.toFinset_append, ids_addSourceGenre_toFinset,
      ids_freshCandidate_toFinset, ids_freshCandidate_toFinset]
    by_cases hgy : gy = 0
    · simp [hgy]
    · simp only [if_neg hgy]
      ext a
      simp only [Finset.mem_union, Finset.mem_insert, Finset.mem_singleton]
      tauto
  · rw [ids_addSourceGenre_toFinset, ids_freshCandidate_toFinset]
    by_cases hgy : gy = 0
    · simp [hgy]
    · simp only [if_neg hgy]
      ext a
      simp only [Finset.mem_union, Finset.mem_insert, Finset.mem_singleton]
      tauto

lemma rating_aggregateTwo (x : CandidateBook) (gx : Int) (gnx : String)
    (y : CandidateBook) (gy : Int) (gny : String) :
    (aggregateTwo x gx gnx y gy gny).averageRating =
      if y.averageRating > x.averageRating ∨
          (y.averageRating = x.averageRating ∧
            y.description.length > x.description.length)
      then y.averageRating else x.averageRating := by
  rw [aggregateTwo, rating_mergeOnCollision, rating_freshCandidate, rating_freshCandidate,
    description_freshCandidate, description_freshCandidate]

lemma description_aggregateTwo (x : CandidateBook) (gx : Int) (gnx : String)
    (y : CandidateBook) (gy : Int) (gny : String) :
    (aggregateTwo x gx gnx y gy gny).description =
      if y.averageRating > x.averageRating ∨
          (y.averageRating = x.averageRating ∧
            y.description.length > x.description.length)
      then y.description else x.description := by
  rw [aggregateTwo, description_mergeOnCollision, rating_freshCandidate,
    rating_freshCandidate, description_freshCandidate, description_freshCandidate]

/-- C3 (amended): for two raw candidates sharing a canonical key, the
merge-on-collision rule yields the same union of source-genre ids in either
input order; it yields the same kept descriptive fields in either input
order whenever the two candidates differ in rating or in description
length; and merging the incoming candidate a second time changes neither
the kept descriptive fields nor the source-genre id set. -/
theorem c3_merge_properties (x y : CandidateBook) (gx gy : Int) (gnx gny : String)
    (hkey : normalizedCandidateKey x = normalizedCandidateKey y) :
    ((aggregateTwo x gx gnx y gy gny).sourceGenreIds.toFinset =
        (aggregateTwo y gy gny x gx gnx).sourceGenreIds.toFinset) ∧
    (¬(x.averageRating = y.averageRating ∧
          x.description.length = y.description.length) →
        descFields (aggregateTwo x gx gnx y gy gny) =
          descFields (aggregateTwo y gy gny x gx gnx)) ∧
    (descFields (mergeOnCollision (aggregateTwo x gx gnx y gy gny)
          (freshCandidate y gy gny) gy gny) =
        descFields (aggregateTwo x gx gnx y gy gny)) ∧
    ((mergeOnCollision (aggregateTwo x gx gnx y gy gny)
          (freshCandidate y gy gny) gy gny).sourceGenreIds.toFinset =
        (aggregateTwo x gx gnx y gy gny).sourceGenreIds.toFinset) := by
  refine ⟨?_, ?_, ?_, ?_⟩
  · rw [ids_aggregateTwo, ids_aggregateTwo]
    exact Finset.union_comm _ _
  · intro hne
    rw [descFields_aggregateTwo, descFields_aggregateTwo]
    rcases lt_trichotomy x.averageRating y.averageRating with h | h | h
    · have hR2 : ¬(x.averageRating > y.averageRating ∨
          (x.averageRating = y.averageRating ∧
            x.description.length > y.description.length)) := by
        rintro (h2 | ⟨h2, _⟩)
        · exact lt_asymm h h2
        · exact ne_of_lt h h2
      rw [if_pos (Or.inl h), if_neg hR2]
    · have hlen : x.description.length ≠ y.description.length :=
        fun hl => hne ⟨h, hl⟩
      rcases lt_trichotomy x.description.length y.description.length with hl | hl | hl
      · have hR2 : ¬(x.averageRating > y.averageRating ∨
            (x.averageRating = y.averageRating ∧
              x.description.length > y.description.length)) := by
          rintro (h2 | ⟨_, h3⟩)
          · rw [h] at h2
            exact lt_irrefl _ h2
          · exact lt_asymm hl h3
        rw [if_pos (Or.inr ⟨h.symm, hl⟩), if_neg hR2]
      · exact absurd hl hlen
      · have hR1 : ¬(y.averageRating > x.averageRating ∨
            (y.averageRating = x.averageRating ∧
              y.description.length > x.description.length)) := by
          rintro (h2 | ⟨_, h3⟩)
          · rw [h] at h2
            exact lt_irrefl _ h2
          · exact lt_asymm hl h3
        rw [if_neg hR1, if_pos (Or.inr ⟨h, hl⟩)]
    · have hR1 : ¬(y.averageRating > x.averageRating ∨
          (y.averageRating = x.averageRating ∧
            y.description.length > x.description.length)) := by
        rintro (h2 | ⟨h2, _⟩)
        · exact lt_asymm h h2
        · exact ne_of_lt h h2
      rw [if_neg hR1, if_pos (Or.inl h)]
  · rw [descFields_mergeOnCollision, rating_freshCandidate, description_freshCandidate]
    have hrm := rating_aggregateTwo x gx gnx y gy gny
    have hdm := description_aggregateTwo x gx gnx y gy gny
    by_cases hc : y.averageRating > x.averageRating ∨
        (y.averageRating = x.averageRating ∧
          y.description.length > x.description.length)
    · rw [if_pos hc] at hrm hdm
      rw [if_neg]
      rw [hrm, hdm]
      rintro (h2 | ⟨_, h3⟩)
      · exact lt_irrefl _ h2
      · exact lt_irrefl _ h3
    · rw [if_neg hc] at hrm hdm
      rw [if_neg]
      rw [hrm, hdm]
      exact hc
  · simp only [mergeOnCollision]
    split
    · show (jsSetOfList
          ((addSourceGenre (aggregateTwo x gx gnx y gy gny) gy gny).sourceGenreIds ++
            (freshCandidate y gy gny).sourceGenreIds)).toFinset = _
      rw [jsSetOfList_toFinset, List.toFinset_append, ids_addSourceGenre_toFinset,
        ids_freshCandidate_toFinset, ids_aggregateTwo]
      by_cases hgy : gy = 0
      · simp [hgy]
      · simp only [if_neg hgy]
        ext a
        simp only [Finset.mem_union, Finset.mem_insert, Finset.mem_singleton]
        tauto
    · rw [ids_addSourceGenre_toFinset, ids_aggregateTwo]
      by_cases hgy : gy = 0
      · simp [hgy]
      · simp only [if_neg hgy]
        ext a
        simp only [Finset.mem_union, Finset.mem_insert, Finset.mem_singleton]
        tauto

/-- C3 counterexample, refuting the claim as stated: two raw candidates
with the same canonical key, equal ratings and equal description lengths
but different descriptions/covers keep different descriptive fields
depending on the processing order. -/
theorem c3_merge_order_counterexample :
    (normalizedCandidateKey
        ⟨"Dune", "Frank Herbert", none, none, "cover-a", "g1", "aa", 0, [], [], []⟩ =
      normalizedCandidateKey
        ⟨"Dune", "Frank Herbert", none, none, "cover-b", "g2", "bb", 0, [], [], []⟩) ∧
    descFields (aggregateTwo
        ⟨"Dune", "Frank Herbert", none, none, "cover-a", "g1", "aa", 0, [], [], []⟩ 1 "Fantasy"
        ⟨"Dune", "Frank Herbert", none, none, "cover-b", "g2", "bb", 0, [], [], []⟩ 2 "Horror") ≠
      descFields (aggregateTwo
        ⟨"Dune", "Frank Herbert", none, none, "cover-b", "g2", "bb", 0, [], [], []⟩ 2 "Horror"
        ⟨"Dune", "Frank Herbert", none, none, "cover-a", "g1", "aa", 0, [], [], []⟩ 1 "Fantasy") := by
  decide

/-- Witness for C3 (amended): candidates with equal ratings but different
description lengths keep the same descriptive fields in either order. -/
theorem c3_merge_properties_witness :
    descFields (aggregateTwo
        ⟨"Dune", "Frank Herbert", none, none, "cover-a", "g1", "short", 0, [], [], []⟩ 1 "Fantasy"
        ⟨"Dune", "Frank Herbert", none, none, "cover-b", "g2", "longer!", 0, [], [], []⟩ 2 "Horror") =
      descFields (aggregateTwo
        ⟨"Dune", "Frank Herbert", none, none, "cover-b", "g2", "longer!", 0, [], [], []⟩ 2 "Horror"
        ⟨"Dune", "Frank Herbert", none, none, "cover-a", "g1", "short", 0, [], [], []⟩ 1 "Fantasy") := by
  exact (c3_merge_properties
    ⟨"Dune", "Frank Herbert", none, none, "cover-a", "g1", "short", 0, [], [], []⟩
    ⟨"Dune", "Frank Herbert", none, none, "cover-b", "g2", "longer!", 0, [], [], []⟩
    1 2 "Fantasy" "Horror" (by decide)).2.1 (by decide)

/-! ## D. The Affinity Scorer (`src/routes/recommendations.ts`) -/

/-- `countIntersection` (lines 193–199): iterate `a`, count members of `b`. -/
def countIntersection (a b : Finset Int) : Nat :=
  (a.filter (fun x => x ∈ b)).card

/-- `deriveGenreIdsFromCategories` (lines 233–285): the same matching and
pruning loops as `matchGenresFromCategories`, collecting the surviving ids
into a `Set`.  `matched` here is an array (duplicate ids are kept) and the
token map is keyed by id with later entries winning, as in the source's
`new Map(matched.map(m => [m.id, m.tokens]))`. -/
def deriveGenreIdsFromCategories (categories : List String) (allGenres : List GenreLite) :
    Finset Int :=
  if categories.isEmpty then ∅
  else
    let cats := categoryTokenSets categories
    let matched := allGenres.filterMap (fun g =>
      if (genreFullTokens g).card = 0 then none
      else if genreMatchesB cats g then some (g.id, genreFullTokens g) else none)
    let matchedIds := matched.map (fun m => m.1)
    let tokensById := matched.foldl (fun m p => mapSet m p.1 p.2) []
    (matchedIds.filter (fun a => !shouldPruneB tokensById matchedIds a)).toFinset

/-- `jaccardSimilarity` (lines 142–150): 0 when either set is empty,
otherwise |intersection| / |union|. -/
def jaccardSimilarity (a b : Finset (List Char)) : ℚ :=
  if a.card = 0 ∨ b.card = 0 then 0
  else
    let i := (a.filter (fun x => x ∈ b)).card
    let u := a.card + b.card - i
    if u = 0 then 0 else (i : ℚ) / (u : ℚ)

structure SimilarityDetail where
  score : ℚ
  matchedIndex : Int
deriving DecidableEq

/-- `maxSimilarityToShelfDetailed` (lines 177–191): best similarity and the
index of the best match; a later equal score does not replace an earlier
one (`sim > best`). -/
def maxSimilarityToShelfDetailed (candidateTokens : Finset (List Char))
    (shelfTokenSets : List (Finset (List Char))) : SimilarityDetail :=
  shelfTokenSets.enum.foldl
    (fun best p =>
      if best.score < jaccardSimilarity candidateTokens p.2
      then ⟨jaccardSimilarity candidateTokens p.2, (p.1 : Int)⟩
      else best)
    ⟨0, -1⟩

structure Weights where
  genre : ℚ
  finished : ℚ
  toRead : ℚ
deriving DecidableEq

/-- Weight selection (lines 439–441): `finishedLite.length > 0` picks
`{0.35, 0.40, 0.25}`, otherwise `{0.70, 0.20, 0.10}` (decimal literals
modelled as exact rationals). -/
def weightsFor (finishedCount : Nat) : Weights :=
  if 0 < finishedCount then ⟨35/100, 40/100, 25/100⟩
  else ⟨70/100, 20/100, 10/100⟩

/-- The effective genre set (line 552): DB genres are authoritative when
present, else the inferred union. -/
def effectiveGenreIdsOf (dbGenreIds inferredGenreIds : Finset Int) : Finset Int :=
  if 0 < dbGenreIds.card then dbGenreIds else inferredGenreIds

/-- `genreOverlapRatio` (line 556). -/
def genreOverlapRatio (effectiveGenreIds preferredGenreIds : Finset Int) : ℚ :=
  if 0 < effectiveGenreIds.card
  then (countIntersection effectiveGenreIds preferredGenreIds : ℚ) /
    (effectiveGenreIds.card : ℚ)
  else 0

/-- `genreScore` (line 557): `0.6 + 0.4 × ratio`, or 0 on an empty
effective set. -/
def genreScore (effectiveGenreIds preferredGenreIds : Finset Int) : ℚ :=
  if 0 < effectiveGenreIds.card
  then 6/10 + (4/10) * genreOverlapRatio effectiveGenreIds preferredGenreIds
  else 0

/-- `bookToText` (lines 152–155): join the non-empty parts with spaces. -/
def bookTextParts (title authors description : String) (categories : List String) :
    String :=
  String.intercalate " "
    ([title, authors, description, String.intercalate " " categories].filter
      (fun s => decide (s ≠ "")))

/-- `bookToText` applied to a full candidate. -/
def candidateText (c : CandidateBook) : String :=
  bookTextParts c.title c.authors c.description c.categories

/-- The shelf projection built in the handler (lines 404–418). -/
structure ShelfBookLite where
  googleBooksId : String
  title : String
  description : String
deriving DecidableEq

/-- `bookToText` applied to a shelf record (no authors or categories). -/
def shelfBookText (b : ShelfBookLite) : String :=
  bookTextParts b.title "" b.description []

structure ScoredCandidate where
  candidate : CandidateBook
  score : ℚ
  genreIds : List Int
  genreScore : ℚ
  genreOverlapRatio : ℚ
  finishedScore : ℚ
  toReadScore : ℚ
  weights : Weights
deriving DecidableEq

/-- Scoring one candidate (lines 544–619, logging elided).  `genreIds` is
`Array.from(effectiveGenreIds)`, modelled as the sorted id list (the
response stage sorts the ids ascending anyway). -/
def scoreCandidate (weights : Weights) (preferredGenreIds : Finset Int)
    (allGenres : List GenreLite) (dbGenreIdsFor : String → List Int)
    (finishedTokenSets toReadTokenSets : List (Finset (List Char)))
    (c : CandidateBook) : ScoredCandidate :=
  let dbGenreIds : Finset Int := (dbGenreIdsFor c.googleBooksId).toFinset
  let sourceGenreIds : Finset Int := c.sourceGenreIds.toFinset
  let categoryGenreIds := deriveGenreIdsFromCategories c.categories allGenres
  let inferredGenreIds := sourceGenreIds ∪ categoryGenreIds
  let effectiveGenreIds := effectiveGenreIdsOf dbGenreIds inferredGenreIds
  let candidateTokens := tokenizeSet (candidateText c)
  let finishedDetail := maxSimilarityToShelfDetailed candidateTokens finishedTokenSets
  let toReadDetail := maxSimilarityToShelfDetailed candidateTokens toReadTokenSets
  { candidate := c
    score := weights.genre * genreScore effectiveGenreIds preferredGenreIds +
      weights.finished * finishedDetail.score + weights.toRead * toReadDetail.score
    genreIds := effectiveGenreIds.sort (· ≤ ·)
    genreScore := genreScore effectiveGenreIds preferredGenreIds
    genreOverlapRatio := genreOverlapRatio effectiveGenreIds preferredGenreIds
    finishedScore := finishedDetail.score
    toReadScore := toReadDetail.score
    weights := weights }

/-- C4: the genre score is 0 exactly when the effective genre set is empty;
otherwise it equals 0.6 + 0.4 × the overlap ratio, which lies in [0, 1] —
hence the genre score is 0 or lies in [0.6, 1]. -/
theorem c4_genre_score (effectiveGenreIds preferredGenreIds : Finset Int) :
    (genreScore effectiveGenreIds preferredGenreIds = 0 ↔ effectiveGenreIds = ∅) ∧
    (effectiveGenreIds ≠ ∅ →
      genreScore effectiveGenreIds preferredGenreIds =
        6/10 + (4/10) * genreOverlapRatio effectiveGenreIds preferredGenreIds ∧
      0 ≤ genreOverlapRatio effectiveGenreIds preferredGenreIds ∧
      genreOverlapRatio effectiveGenreIds preferredGenreIds ≤ 1) ∧
    (genreScore effectiveGenreIds preferredGenreIds = 0 ∨
      (6/10 ≤ genreScore effectiveGenreIds preferredGenreIds ∧
        genreScore effectiveGenreIds preferredGenreIds ≤ 1)) := by
  by_cases hne : effectiveGenreIds = ∅
  · subst hne
    refine ⟨by simp [genreScore], fun h => absurd rfl h, Or.inl (by simp [genreScore])⟩
  · have hcard : 0 < effectiveGenreIds.card :=
      Finset.card_pos.mpr (Finset.nonempty_iff_ne_empty.mpr hne)
    have hr0 : 0 ≤ genreOverlapRatio effectiveGenreIds preferredGenreIds := by
      rw [genreOverlapRatio, if_pos hcard]
      exact div_nonneg (Nat.cast_nonneg _) (Nat.cast_nonneg _)
    have hr1 : genreOverlapRatio effectiveGenreIds preferredGenreIds ≤ 1 := by
      rw [genreOverlapRatio, if_pos hcard]
      rw [div_le_one (by exact_mod_cast hcard)]
      have hle : countIntersection effectiveGenreIds preferredGenreIds ≤
          effectiveGenreIds.card := Finset.card_filter_le _ _
      exact_mod_cast hle
    have hs : genreScore effectiveGenreIds preferredGenreIds =
        6/10 + (4/10) * genreOverlapRatio effectiveGenreIds preferredGenreIds := by
      rw [genreScore, if_pos hcard]
    refine ⟨⟨?_, fun h => absurd h hne⟩, fun _ => ⟨hs, hr0, hr1⟩, Or.inr ⟨?_, ?_⟩⟩
    · intro h0
      rw [hs] at h0
      nlinarith
    · rw [hs]
      nlinarith
    · rw [hs]
      nlinarith

/-- Witness for C4 at a one-element effective set fully inside the
preferred set. -/
theorem c4_genre_score_witness :
    genreScore ({1} : Finset Int) ({1} : Finset Int) =
      6/10 + (4/10) * genreOverlapRatio ({1} : Finset Int) ({1} : Finset Int) := by
  exact ((c4_genre_score {1} {1}).2.1 (by decide)).1

/-- C5: in both weight regimes (finished shelf non-empty: genre 0.35,
finished 0.40, toRead 0.25; finished shelf empty: genre 0.70,
finished 0.20, toRead 0.10) the three weights sum to exactly 1. -/
theorem c5_weights_sum (finishedCount : Nat) :
    (0 < finishedCount → weightsFor finishedCount = ⟨35/100, 40/100, 25/100⟩) ∧
    (finishedCount = 0 → weightsFor finishedCount = ⟨70/100, 20/100, 10/100⟩) ∧
    (weightsFor finishedCount).genre + (weightsFor finishedCount).finished +
      (weightsFor finishedCount).toRead = 1 := by
  by_cases h : 0 < finishedCount
  · refine ⟨fun _ => by rw [weightsFor, if_pos h], ?_, ?_⟩
    · intro h0
      rw [h0] at h
      exact absurd h (lt_irrefl 0)
    · rw [weightsFor, if_pos h]
      norm_num
  · refine ⟨fun h1 => absurd h1 h, fun _ => by rw [weightsFor, if_neg h], ?_⟩
    rw [weightsFor, if_neg h]
    norm_num

/-- Witness for C5 at both regimes. -/
theorem c5_weights_sum_witness :
    weightsFor 1 = ⟨35/100, 40/100, 25/100⟩ ∧
      weightsFor 0 = ⟨70/100, 20/100, 10/100⟩ := by
  exact ⟨(c5_weights_sum 1).1 (by decide), (c5_weights_sum 0).2.1 rfl⟩

/-! ## E. The ranked Selector (`src/routes/recommendations.ts` lines 621–622) -/

/-- The selector's sort, line 621: `scored.sort((a, b) => b.score - a.score)` —
a stable sort by score descending, modelled by stable `mergeSort` under the
total preorder `b.score ≤ a.score`. -/
def rankedSort (scored : List ScoredCandidate) : List ScoredCandidate :=
  scored.mergeSort (fun a b => decide (b.score ≤ a.score))

/-- Line 622: `slice(0, 20)` of the sorted list. -/
def rankedSelect (scored : List ScoredCandidate) : List ScoredCandidate :=
  (rankedSort scored).take 20

/-- A stable descending sort is unique: two permutations of one another that
are both sorted descending by `key` and agree with each other on every
equal-key fibre are equal. -/
theorem stableDescUnique {α : Type} (key : α → ℚ) :
    ∀ l₁ l₂ : List α, List.Perm l₁ l₂ →
      l₁.Pairwise (fun a b => key b ≤ key a) →
      l₂.Pairwise (fun a b => key b ≤ key a) →
      (∀ q : ℚ, l₁.filter (fun x => decide (key x = q)) =
        l₂.filter (fun x => decide (key x = q))) →
      l₁ = l₂ := by
  intro l₁
  induction l₁ with
  | nil =>
    intro l₂ hp _ _ _
    exact hp.nil_eq
  | cons a t₁ ih =>
    intro l₂ hp h₁ h₂ hf
    cases l₂ with
    | nil => exact absurd hp.symm.nil_eq (fun h => List.cons_ne_nil a t₁ h.symm)
    | cons b t₂ =>
      have hab : key a = key b := by
        have hba : key b ≤ key a := by
          have hbmem : b ∈ a :: t₁ := hp.symm.subset (List.mem_cons_self b t₂)
          rcases List.mem_cons.mp hbmem with h | h
          · rw [h]
          · exact (List.pairwise_cons.mp h₁).1 b h
        have hab' : key a ≤ key b := by
          have hamem : a ∈ b :: t₂ := hp.subset (List.mem_cons_self a t₁)
          rcases List.mem_cons.mp hamem with h | h
          · rw [h]
          · exact (List.pairwise_cons.mp h₂).1 a h
        exact le_antisymm hab' hba
      have hfa := hf (key a)
      rw [List.filter_cons, List.filter_cons] at hfa
      have e1 : decide (key a = key a) = true := by simp
      have e2 : decide (key b = key a) = true := by simp [hab]
      rw [if_pos e1, if_pos e2] at hfa
      have hhead : a = b := by
        injection hfa
      subst hhead
      have hperm : List.Perm t₁ t₂ := hp.cons_inv
      have hfilters : ∀ q : ℚ, t₁.filter (fun x => decide (key x = q)) =
          t₂.filter (fun x => decide (key x = q)) := by
        intro q
        have hq := hf q
        rw [List.filter_cons, List.filter_cons] at hq
        by_cases hc : decide (key a = q) = true
        · rw [if_pos hc, if_pos hc] at hq
          injection hq
        · rw [if_neg hc, if_neg hc] at hq
          exact hq
      rw [ih t₂ hperm h₁.of_cons h₂.of_cons hfilters]

/-- Transitivity of the selector's Boolean comparison. -/
theorem rankedLe_trans : ∀ a b c : ScoredCandidate,
    decide (b.score ≤ a.score) = true → decide (c.score ≤ b.score) = true →
    decide (c.score ≤ a.score) = true := by
  intro a b c hab hbc
  simp only [decide_eq_true_eq] at hab hbc ⊢
  exact le_trans hbc hab

/-- Totality of the selector's Boolean comparison. -/
theorem rankedLe_total : ∀ a b : ScoredCandidate,
    (decide (b.score ≤ a.score) || decide (a.score ≤ b.score)) = true := by
  intro a b
  rcases le_total a.score b.score with h | h <;> simp [h]

/-- The sorted list is a permutation of the input. -/
theorem rankedSort_perm (scored : List ScoredCandidate) :
    List.Perm (rankedSort scored) scored :=
  List.mergeSort_perm scored (fun a b => decide (b.score ≤ a.score))

/-- The sorted list is descending by score. -/
theorem rankedSort_sorted (scored : List ScoredCandidate) :
    (rankedSort scored).Pairwise (fun a b => b.score ≤ a.score) := by
  have h : (List.mergeSort scored (fun a b : ScoredCandidate =>
        decide (b.score ≤ a.score))).Pairwise
      (fun a b => decide (b.score ≤ a.score) = true) :=
    List.sorted_mergeSort rankedLe_trans rankedLe_total scored
  exact h.imp (fun hab => of_decide_eq_true hab)

/-- Ties keep the aggregator's order: for each score value, the sorted list's
equal-score fibre is exactly the input's. -/
theorem rankedSort_stable (scored : List ScoredCandidate) (q : ℚ) :
    (rankedSort scored).filter (fun c => decide (c.score = q)) =
      scored.filter (fun c => decide (c.score = q)) := by
  set p : ScoredCandidate → Bool := fun c => decide (c.score = q) with hp
  have hpair : (scored.filter p).Pairwise
      (fun a b : ScoredCandidate => decide (b.score ≤ a.score) = true) := by
    refine List.pairwise_of_forall_mem_list ?_
    intro a ha b hb
    have ha' : a.score = q := of_decide_eq_true (List.mem_filter.mp ha).2
    have hb' : b.score = q := of_decide_eq_true (List.mem_filter.mp hb).2
    rw [decide_eq_true_eq, ha', hb']
  have hsub : List.Sublist (scored.filter p) (rankedSort scored) :=
    List.sublist_mergeSort rankedLe_trans rankedLe_total hpair
      (List.filter_sublist scored)
  have hsub2 : List.Sublist (scored.filter p) ((rankedSort scored).filter p) := by
    have h1 : (scored.filter p).filter p = scored.filter p :=
      List.filter_eq_self.mpr (fun x hx => (List.mem_filter.mp hx).2)
    rw [show scored.filter p = (scored.filter p).filter p from h1.symm]
    exact hsub.filter p
  have hlen : ((rankedSort scored).filter p).length = (scored.filter p).length :=
    ((rankedSort_perm scored).filter p).length_eq
  exact (hsub2.eq_of_length_le (le_of_eq hlen)).symm

/-- C6: the ranked selector's sorted sequence is a permutation of the scored
list, sorted by totalScore descending, keeps the aggregator-output relative
order among equal scores (each equal-score fibre matches the input's), and is
the unique such list; the emitted list is exactly its first 20 entries, so its
length is min 20 n. -/
theorem c6_ranked_selector (scored : List ScoredCandidate) :
    List.Perm (rankedSort scored) scored ∧
    (rankedSort scored).Pairwise (fun a b => b.score ≤ a.score) ∧
    (∀ q : ℚ, (rankedSort scored).filter (fun c => decide (c.score = q)) =
      scored.filter (fun c => decide (c.score = q))) ∧
    (∀ l : List ScoredCandidate, List.Perm l scored →
      l.Pairwise (fun a b => b.score ≤ a.score) →
      (∀ q : ℚ, l.filter (fun c => decide (c.score = q)) =
        scored.filter (fun c => decide (c.score = q))) →
      l = rankedSort scored) ∧
    rankedSelect scored = (rankedSort scored).take 20 ∧
    (rankedSelect scored).length = min 20 scored.length := by
  refine ⟨rankedSort_perm scored, rankedSort_sorted scored,
    fun q => rankedSort_stable scored q, ?_, rfl, ?_⟩
  · intro l hlp hlsort hlf
    refine stableDescUnique (fun c => c.score) l (rankedSort scored)
      (hlp.trans (rankedSort_perm scored).symm) hlsort (rankedSort_sorted scored) ?_
    intro q
    rw [hlf q, rankedSort_stable scored q]
  · rw [rankedSelect, List.length_take]
    rw [(rankedSort_perm scored).length_eq]

/-! ## G. Metadata fetch and cover lookup (`src/routes/recommendations.ts`
lines 47–129; the same helpers appear in `src/routes/search.ts`) -/

/-- The upstream Open Library call as `fetchOpenLibraryCover` observes it:
the HTTP request either throws (carrying the failed response's status when
there is one — 429 is the rate-limit case the source logs) or resolves to a
response whose `docs` array may be missing; each doc carries an optional
numeric `cover_i` (0 is falsy in the source's `doc.cover_i` test). -/
inductive OpenLibResult where
  | failure (status : Option Nat)
  | success (docs : Option (List (Option Nat)))
deriving DecidableEq

/-- JS truthiness of `doc.cover_i`. -/
def coverTruthy : Option Nat → Bool
  | some n => decide (n ≠ 0)
  | none => false

/-- `fetchOpenLibraryCover` (lines 54–77): a total function of the upstream
outcome — the catch-all handler turns every thrown error (any status,
including 429) into `null`, and a missing, empty or cover-less doc list is
`null` as well. -/
def fetchOpenLibraryCover (res : OpenLibResult) : Option String :=
  match res with
  | .failure _ => none
  | .success none => none
  | .success (some docs) =>
    if docs.isEmpty then none
    else
      match docs.find? coverTruthy with
      | some (some n) =>
        some ("https://covers.openlibrary.org/b/id/" ++ toString n ++ "-L.jpg")
      | _ => none

/-- `truncateDescription` (lines 47–51): at most 150 `\s+`-separated words,
with " ..." appended when truncated. -/
def truncateDescription (text : String) (wordLimit : Nat) : String :=
  let words := splitWs text.data
  if words.length ≤ wordLimit then text
  else String.intercalate " " ((words.take wordLimit).map String.mk) ++ " ..."

/-- One raw Google volume item as the mapper reads it (lines 89–124):
`publishedDate` is carried as the already-parsed year
(`parseInt(publishedDate.slice(0, 4))`, `none` for a missing date),
`description` and `title` use `""` for a missing field (both are falsy in
the source's tests), and `coverResult` is the Open Library response this
item's cover lookup observes. -/
structure RawVolumeItem where
  id : String
  title : String
  authorsList : List String
  publishedDate : Option Int
  description : String
  averageRating : ℚ
  categories : List String
  industryIdentifiers : List (String × String)
  coverResult : OpenLibResult

def startsWithSeg : List Char → List Char → Bool
  | [], _ => true
  | _ :: _, [] => false
  | p :: ps, c :: cs => p = c && startsWithSeg ps cs

/-- `String.prototype.includes` on char lists. -/
def containsSeg (needle hay : List Char) : Bool :=
  hay.tails.any (fun t => startsWithSeg needle t)

/-- Lines 104–107: drop Annotated / Illustrated editions. -/
def containsForbidden (title : String) : Bool :=
  let lower := title.data.map jsLower
  containsSeg "annotated".data lower || containsSeg "illustrated".data lower

/-- `authors?.join(", ") || "Unknown"` (line 111): a missing or empty author
list joins to a falsy string, giving "Unknown". -/
def joinAuthors (authorsList : List String) : String :=
  let j := String.intercalate ", " authorsList
  if j = "" then "Unknown" else j

/-- `industryIdentifiers?.find(id => id.type === "ISBN_13")?.identifier || null`
(lines 115–118). -/
def isbnOf (ids : List (String × String)) : Option String :=
  match ids.find? (fun p => decide (p.1 = "ISBN_13")) with
  | some p => if p.2 = "" then none else some p.2
  | none => none

/-- The candidate object returned for a surviving item (lines 109–124) with
its successfully fetched cover `cov`; the genre fields are absent on the raw
object and start empty. -/
def buildCandidate (item : RawVolumeItem) (cov : String) : CandidateBook :=
  { title := item.title
    authors := joinAuthors item.authorsList
    publishedDate := item.publishedDate
    isbn := isbnOf item.industryIdentifiers
    coverUrl := cov
    googleBooksId := item.id
    description := truncateDescription item.description 150
    averageRating := item.averageRating
    categories := item.categories
    sourceGenreIds := []
    sourceGenreNames := [] }

/-- The `map` callback for one item (lines 89–124): a missing cover or
missing description excludes the book, as does a forbidden title. -/
def processItem (item : RawVolumeItem) : Option CandidateBook :=
  match fetchOpenLibraryCover item.coverResult with
  | none => none
  | some cov =>
    if item.description = "" then none
    else if containsForbidden item.title then none
    else some (buildCandidate item cov)

/-- `fetchBooksFromGoogle` (lines 83–129): `res.data.items?` may be missing
(`|| []` yields an empty batch); the surviving mapped items are collected by
`books.filter(Boolean)`. -/
def fetchBooksFromGoogle (items : Option (List RawVolumeItem)) :
    List CandidateBook :=
  match items with
  | none => []
  | some its => its.filterMap processItem

/-- An item whose cover lookup yields no cover is excluded. -/
theorem processItem_none_of_no_cover (item : RawVolumeItem)
    (h : fetchOpenLibraryCover item.coverResult = none) :
    processItem item = none := by
  rw [processItem, h]

/-- C8: the cover helper returns null on every upstream failure (any status,
including 429 rate-limiting) rather than throwing — it is a total function
of the upstream outcome; an item whose cover lookup yields no cover is
dropped from the candidate set (`processItem` gives none) and its removal
leaves the rest of the batch untouched; and every candidate the fetch emits
carries a successfully fetched cover URL.  In particular a cover-lookup
failure never surfaces an error from the fetch. -/
theorem c8_cover_failure (items : List RawVolumeItem) :
    (∀ status : Option Nat, fetchOpenLibraryCover (.failure status) = none) ∧
    (∀ item : RawVolumeItem, fetchOpenLibraryCover item.coverResult = none →
      processItem item = none) ∧
    (∀ item : RawVolumeItem, ∀ rest : List RawVolumeItem,
      fetchOpenLibraryCover item.coverResult = none →
      fetchBooksFromGoogle (some (item :: rest)) =
        fetchBooksFromGoogle (some rest)) ∧
    (∀ c ∈ fetchBooksFromGoogle (some items), ∃ item ∈ items,
      processItem item = some c ∧
      fetchOpenLibraryCover item.coverResult = some c.coverUrl) := by
  refine ⟨fun _ => rfl, fun item h => processItem_none_of_no_cover item h, ?_, ?_⟩
  · intro item rest h
    show (item :: rest).filterMap processItem = rest.filterMap processItem
    rw [List.filterMap_cons, processItem_none_of_no_cover item h]
  · intro c hc
    have hc' : c ∈ items.filterMap processItem := hc
    rcases List.mem_filterMap.mp hc' with ⟨item, hmem, hpi⟩
    refine ⟨item, hmem, hpi, ?_⟩
    cases hcov : fetchOpenLibraryCover item.coverResult with
    | none =>
      rw [processItem_none_of_no_cover item hcov] at hpi
      exact absurd hpi (by simp)
    | some cov =>
      have hpi2 : (if item.description = "" then none
          else if containsForbidden item.title = true then none
          else some (buildCandidate item cov)) = some c := by
        rw [← hpi, processItem, hcov]
      by_cases hd : item.description = ""
      · rw [if_pos hd] at hpi2
        exact absurd hpi2 (by simp)
      · rw [if_neg hd] at hpi2
        by_cases hf : containsForbidden item.title = true
        · rw [if_pos hf] at hpi2
          exact absurd hpi2 (by simp)
        · rw [if_neg hf] at hpi2
          have hcb : buildCandidate item cov = c := Option.some.inj hpi2
          rw [← hcb]
          rfl

/-! ## F. The search pipeline (`src/routes/search.ts`)

Both file variants deduplicate by the lowercased `title|authors` key keeping
the first occurrence, then sort by `title.localeCompare` and then
`authors.localeCompare`; the second variant finally overlays DB-authoritative
genres.  `localeCompare` is modelled as deterministic code-point
lexicographic comparison. -/

/-- One search result object (lines 239–252 of the second variant; the first
variant lacks the id and genre fields, i.e. has them at their defaults). -/
structure SearchBook where
  id : Int
  title : String
  authors : String
  publishedDate : Option String
  isbn : Option String
  coverUrl : String
  googleBooksId : String
  description : String
  averageRating : ℚ
  categories : List String
  sourceGenreIds : List Int
  sourceGenreNames : List String
deriving DecidableEq

/-- The dedup key (line 260): `${title.toLowerCase()}|${authors.toLowerCase()}`. -/
def searchDedupKey (b : SearchBook) : String :=
  String.mk (b.title.data.map jsLower) ++ "|" ++ String.mk (b.authors.data.map jsLower)

/-- One iteration of the `uniqueBooksMap` loop (lines 259–262): a book whose
key is already present is skipped, otherwise it is appended (JS `Map`
preserves first-insertion order, which `Array.from(values())` reads back). -/
def dedupStep (acc : List SearchBook) (b : SearchBook) : List SearchBook :=
  if acc.any (fun x => decide (searchDedupKey x = searchDedupKey b)) then acc
  else acc ++ [b]

/-- Lines 258–264: keep-first dedup of the filtered books. -/
def dedupBooks (books : List SearchBook) : List SearchBook :=
  books.foldl dedupStep []

/-- Code-point comparison of two characters (the model of `localeCompare`
at one position). -/
def compareChars (a b : Char) : Ordering :=
  if a.toNat < b.toNat then .lt else if b.toNat < a.toNat then .gt else .eq

/-- Code-point lexicographic comparison of two strings (as char lists): the
first differing position decides, a strict prefix sorts first. -/
def compareCharList : List Char → List Char → Ordering
  | [], [] => .eq
  | [], _ :: _ => .lt
  | _ :: _, [] => .gt
  | x :: xs, y :: ys =>
    if compareChars x y = .eq then compareCharList xs ys else compareChars x y

/-- The sort comparator (lines 267–271): title first, authors as
tie-break. -/
def searchCompare (a b : SearchBook) : Ordering :=
  if compareCharList a.title.data b.title.data = .eq
  then compareCharList a.authors.data b.authors.data
  else compareCharList a.title.data b.title.data

/-- `uniqueBooks.sort(...)` (line 267) as a stable sort by the comparator. -/
def sortBooks (books : List SearchBook) : List SearchBook :=
  books.mergeSort (fun a b => decide (searchCompare a b ≠ .gt))

/-- The DB overlay (lines 298–308): when the canonical store knows the
external id and has at least one genre for it, the response row gets the DB
book id and the DB genres; otherwise the row is unchanged. -/
def overlayBook (dbFor : String → Option (Int × List (Int × String)))
    (b : SearchBook) : SearchBook :=
  match dbFor b.googleBooksId with
  | none => b
  | some (dbId, gs) =>
    if gs.isEmpty then b
    else { b with
      id := dbId
      sourceGenreIds := gs.map (fun g => g.1)
      sourceGenreNames := gs.map (fun g => g.2) }

/-- The search response: dedup keep-first, sort, overlay.  The first file
variant is the special case `dbFor = fun _ => none`. -/
def searchResponse (dbFor : String → Option (Int × List (Int × String)))
    (filteredBooks : List SearchBook) : List SearchBook :=
  (sortBooks (dedupBooks filteredBooks)).map (overlayBook dbFor)

/-- `compareChars` detects equality. -/
theorem compareChars_eq_iff (a b : Char) : compareChars a b = .eq ↔ a = b := by
  constructor
  · intro h
    rw [compareChars] at h
    by_cases h1 : a.toNat < b.toNat
    · rw [if_pos h1] at h
      exact absurd h (by decide)
    · rw [if_neg h1] at h
      by_cases h2 : b.toNat < a.toNat
      · rw [if_pos h2] at h
        exact absurd h (by decide)
      · have hn : a.toNat = b.toNat :=
          Nat.le_antisymm (Nat.not_lt.mp h2) (Nat.not_lt.mp h1)
        apply Char.eq_of_val_eq
        apply UInt32.eq_of_val_eq
        exact Fin.ext hn
  · intro h
    subst h
    rw [compareChars, if_neg (lt_irrefl _), if_neg (lt_irrefl _)]

/-- `compareChars` detects strict code-point order. -/
theorem compareChars_lt_iff (a b : Char) :
    compareChars a b = .lt ↔ a.toNat < b.toNat := by
  rw [compareChars]
  by_cases h : a.toNat < b.toNat
  · rw [if_pos h]
    simp [h]
  · rw [if_neg h]
    by_cases h2 : b.toNat < a.toNat
    · rw [if_pos h2]
      constructor
      · intro hh
        exact absurd hh (by decide)
      · intro hh
        exact absurd hh h
    · rw [if_neg h2]
      constructor
      · intro hh
        exact absurd hh (by decide)
      · intro hh
        exact absurd hh h

/-- Swapping the arguments of `compareChars` swaps the ordering. -/
theorem compareChars_swap (a b : Char) :
    compareChars b a = (compareChars a b).swap := by
  rw [compareChars, compareChars]
  rcases Nat.lt_trichotomy a.toNat b.toNat with h | h | h
  · have h1 : ¬ b.toNat < a.toNat := by omega
    rw [if_neg h1, if_pos h, if_pos h]
    decide
  · have h1 : ¬ b.toNat < a.toNat := by omega
    have h2 : ¬ a.toNat < b.toNat := by omega
    rw [if_neg h1, if_neg h2, if_neg h2, if_neg h1]
    decide
  · have h2 : ¬ a.toNat < b.toNat := by omega
    rw [if_pos h, if_neg h2, if_pos h]
    decide

/-- `Ordering.swap` fixes only `.eq`. -/
theorem orderingSwap_eq_eq (o : Ordering) : o.swap = .eq ↔ o = .eq := by
  cases o <;> decide

/-- The cons-cons unfolding of `compareCharList`. -/
theorem cll_cons (x y : Char) (xs ys : List Char) :
    compareCharList (x :: xs) (y :: ys) =
      if compareChars x y = .eq then compareCharList xs ys
      else compareChars x y := rfl

/-- `compareCharList` detects equality. -/
theorem cll_eq_iff : ∀ xs ys : List Char, compareCharList xs ys = .eq ↔ xs = ys := by
  intro xs
  induction xs with
  | nil =>
    intro ys
    cases ys with
    | nil => simp [compareCharList]
    | cons y ys => simp [compareCharList]
  | cons x xs ih =>
    intro ys
    cases ys with
    | nil => simp [compareCharList]
    | cons y ys =>
      rw [cll_cons]
      by_cases h : compareChars x y = .eq
      · have hxy : x = y := (compareChars_eq_iff x y).mp h
        subst hxy
        rw [if_pos h]
        simp [ih ys]
      · rw [if_neg h]
        constructor
        · intro hh
          exact absurd hh h
        · intro hh
          injection hh with h1 h2
          exact absurd ((compareChars_eq_iff x y).mpr h1) h
    
/-- Swapping the arguments of `compareCharList` swaps the ordering. -/
theorem cll_swap : ∀ xs ys : List Char,
    compareCharList ys xs = (compareCharList xs ys).swap := by
  intro xs
  induction xs with
  | nil =>
    intro ys
    cases ys with
    | nil => rfl
    | cons y ys => rfl
  | cons x xs ih =>
    intro ys
    cases ys with
    | nil => rfl
    | cons y ys =>
      rw [cll_cons, cll_cons]
      by_cases h : compareChars x y = .eq
      · have h' : compareChars y x = .eq := by
          rw [compareChars_swap, orderingSwap_eq_eq]
          exact h
        rw [if_pos h, if_pos h']
        exact ih ys
      · have h' : ¬ compareChars y x = .eq := by
          rw [compareChars_swap, orderingSwap_eq_eq]
          exact h
        rw [if_neg h, if_neg h']
        exact compareChars_swap x y

/-- Transitivity of strict code-point order on lists. -/
theorem cll_lt_trans : ∀ xs ys zs : List Char, compareCharList xs ys = .lt →
    compareCharList ys zs = .lt → compareCharList xs zs = .lt := by
  intro xs
  induction xs with
  | nil =>
    intro ys zs h1 h2
    cases zs with
    | nil =>
      cases ys with
      | nil =>
        have h1' : Ordering.eq = Ordering.lt := h1
        exact absurd h1' (by decide)
      | cons y ys =>
        have h2' : Ordering.gt = Ordering.lt := h2
        exact absurd h2' (by decide)
    | cons z zs => rfl
  | cons x xs ih =>
    intro ys zs h1 h2
    cases ys with
    | nil =>
      have h1' : Ordering.gt = Ordering.lt := h1
      exact absurd h1' (by decide)
    | cons y ys =>
      cases zs with
      | nil =>
        have h2' : Ordering.gt = Ordering.lt := h2
        exact absurd h2' (by decide)
      | cons z zs =>
        rw [cll_cons] at h1 h2 ⊢
        by_cases hxy : compareChars x y = .eq
        · rw [if_pos hxy] at h1
          have hx : x = y := (compareChars_eq_iff x y).mp hxy
          subst hx
          by_cases hyz : compareChars x z = .eq
          · rw [if_pos hyz] at h2 ⊢
            exact ih ys zs h1 h2
          · rw [if_neg hyz] at h2 ⊢
            exact h2
        · rw [if_neg hxy] at h1
          by_cases hyz : compareChars y z = .eq
          · have hy : y = z := (compareChars_eq_iff y z).mp hyz
            subst hy
            rw [if_neg hxy]
            exact h1
          · rw [if_neg hyz] at h2
            have hlt : compareChars x z = .lt := by
              rw [compareChars_lt_iff] at h1 h2 ⊢
              omega
            have hne : ¬ compareChars x z = .eq := by
              rw [hlt]
              decide
            rw [if_neg hne]
            exact hlt

/-- The comparator returns `.eq` exactly on equal title and authors. -/
theorem searchCompare_eq_iff (a b : SearchBook) :
    searchCompare a b = .eq ↔ a.title = b.title ∧ a.authors = b.authors := by
  rw [searchCompare]
  by_cases h : compareCharList a.title.data b.title.data = .eq
  · rw [if_pos h]
    have ht : a.title = b.title := String.ext ((cll_eq_iff _ _).mp h)
    constructor
    · intro hh
      exact ⟨ht, String.ext ((cll_eq_iff _ _).mp hh)⟩
    · intro hh
      exact (cll_eq_iff _ _).mpr (by rw [hh.2])
  · rw [if_neg h]
    constructor
    · intro hh
      exact absurd hh h
    · intro hh
      exact absurd ((cll_eq_iff _ _).mpr (by rw [hh.1])) h

/-- Swapping the comparator's arguments swaps the ordering. -/
theorem searchCompare_swap (a b : SearchBook) :
    searchCompare b a = (searchCompare a b).swap := by
  rw [searchCompare, searchCompare]
  by_cases h : compareCharList a.title.data b.title.data = .eq
  · have h' : compareCharList b.title.data a.title.data = .eq := by
      rw [cll_swap a.title.data b.title.data, h]
      decide
    rw [if_pos h', if_pos h]
    exact cll_swap a.authors.data b.authors.data
  · have h' : ¬ compareCharList b.title.data a.title.data = .eq := by
      rw [cll_swap a.title.data b.title.data, orderingSwap_eq_eq]
      exact h
    rw [if_neg h', if_neg h]
    exact cll_swap a.title.data b.title.data

/-- Transitivity of the comparator's strict order. -/
theorem searchCompare_lt_trans (a b c : SearchBook) (h1 : searchCompare a b = .lt)
    (h2 : searchCompare b c = .lt) : searchCompare a c = .lt := by
  rw [searchCompare] at h1 h2 ⊢
  by_cases t1 : compareCharList a.title.data b.title.data = .eq
  · rw [if_pos t1] at h1
    have ht : a.title = b.title := String.ext ((cll_eq_iff _ _).mp t1)
    by_cases t2 : compareCharList b.title.data c.title.data = .eq
    · rw [if_pos t2] at h2
      have ht2 : b.title = c.title := String.ext ((cll_eq_iff _ _).mp t2)
      have hteq : compareCharList a.title.data c.title.data = .eq :=
        (cll_eq_iff _ _).mpr (by rw [ht, ht2])
      rw [if_pos hteq]
      exact cll_lt_trans _ _ _ h1 h2
    · rw [if_neg t2] at h2
      have hlt : compareCharList a.title.data c.title.data = .lt := by
        rw [ht]
        exact h2
      have hne : ¬ compareCharList a.title.data c.title.data = .eq := by
        rw [hlt]
        decide
      rw [if_neg hne]
      exact hlt
  · rw [if_neg t1] at h1
    by_cases t2 : compareCharList b.title.data c.title.data = .eq
    · have ht2 : b.title = c.title := String.ext ((cll_eq_iff _ _).mp t2)
      have hlt : compareCharList a.title.data c.title.data = .lt := by
        rw [← ht2]
        exact h1
      have hne : ¬ compareCharList a.title.data c.title.data = .eq := by
        rw [hlt]
        decide
      rw [if_neg hne]
      exact hlt
    · rw [if_neg t2] at h2
      have hlt : compareCharList a.title.data c.title.data = .lt :=
        cll_lt_trans _ _ _ h1 h2
      have hne : ¬ compareCharList a.title.data c.title.data = .eq := by
        rw [hlt]
        decide
      rw [if_neg hne]
      exact hlt

/-- Transitivity of the sort's Boolean comparison. -/
theorem searchLe_trans : ∀ a b c : SearchBook,
    decide (searchCompare a b ≠ .gt) = true → decide (searchCompare b c ≠ .gt) = true →
    decide (searchCompare a c ≠ .gt) = true := by
  intro a b c h1 h2
  rw [decide_eq_true_eq] at h1 h2 ⊢
  cases hab : searchCompare a b with
  | gt => exact absurd hab h1
  | eq =>
    have hc := (searchCompare_eq_iff a b).mp hab
    have he : searchCompare a c = searchCompare b c := by
      rw [searchCompare, searchCompare, hc.1, hc.2]
    rw [he]
    exact h2
  | lt =>
    cases hbc : searchCompare b c with
    | gt => exact absurd hbc h2
    | eq =>
      have hc := (searchCompare_eq_iff b c).mp hbc
      have he : searchCompare a c = searchCompare a b := by
        rw [searchCompare, searchCompare, hc.1, hc.2]
      rw [he, hab]
      decide
    | lt =>
      rw [searchCompare_lt_trans a b c hab hbc]
      decide

/-- Totality of the sort's Boolean comparison. -/
theorem searchLe_total : ∀ a b : SearchBook,
    (decide (searchCompare a b ≠ .gt) || decide (searchCompare b a ≠ .gt)) = true := by
  intro a b
  rw [Bool.or_eq_true, decide_eq_true_eq, decide_eq_true_eq]
  cases h : searchCompare a b with
  | lt =>
    left
    decide
  | eq =>
    left
    decide
  | gt =>
    right
    rw [searchCompare_swap a b, h]
    decide

/-- One dedup step preserves pairwise-distinct keys. -/
theorem dedupStep_pairwise (acc : List SearchBook) (b : SearchBook)
    (h : acc.Pairwise (fun x y => searchDedupKey x ≠ searchDedupKey y)) :
    (dedupStep acc b).Pairwise (fun x y => searchDedupKey x ≠ searchDedupKey y) := by
  rw [dedupStep]
  by_cases hc : acc.any (fun x => decide (searchDedupKey x = searchDedupKey b)) = true
  · rw [if_pos hc]
    exact h
  · rw [if_neg hc]
    rw [List.pairwise_append]
    refine ⟨h, by simp, ?_⟩
    intro x hx y hy
    rw [List.mem_singleton] at hy
    subst hy
    intro hk
    exact hc (List.any_eq_true.mpr ⟨x, hx, by rw [decide_eq_true_eq]; exact hk⟩)

/-- The dedup fold keeps pairwise-distinct keys from any clean accumulator. -/
theorem dedup_fold_pairwise (books : List SearchBook) :
    ∀ acc : List SearchBook,
      acc.Pairwise (fun x y => searchDedupKey x ≠ searchDedupKey y) →
      (books.foldl dedupStep acc).Pairwise
        (fun x y => searchDedupKey x ≠ searchDedupKey y) := by
  induction books with
  | nil =>
    intro acc h
    exact h
  | cons b bs ih =>
    intro acc h
    rw [List.foldl_cons]
    exact ih (dedupStep acc b) (dedupStep_pairwise acc b h)

/-- The deduplicated list has pairwise-distinct keys. -/
theorem dedupBooks_pairwise (books : List SearchBook) :
    (dedupBooks books).Pairwise (fun x y => searchDedupKey x ≠ searchDedupKey y) :=
  dedup_fold_pairwise books [] List.Pairwise.nil

/-- The sort permutes its input. -/
theorem sortBooks_perm (books : List SearchBook) :
    List.Perm (sortBooks books) books :=
  List.mergeSort_perm books (fun a b => decide (searchCompare a b ≠ .gt))

/-- The sort's output is ordered by the comparator. -/
theorem sortBooks_sorted (books : List SearchBook) :
    (sortBooks books).Pairwise (fun a b => searchCompare a b ≠ .gt) := by
  have h : (List.mergeSort books (fun a b : SearchBook =>
        decide (searchCompare a b ≠ .gt))).Pairwise
      (fun a b => decide (searchCompare a b ≠ .gt) = true) :=
    List.sorted_mergeSort searchLe_trans searchLe_total books
  exact h.imp (fun hab => of_decide_eq_true hab)

/-- Sorting keeps the keys pairwise distinct. -/
theorem sortBooks_keys (books : List SearchBook)
    (h : books.Pairwise (fun x y => searchDedupKey x ≠ searchDedupKey y)) :
    (sortBooks books).Pairwise (fun x y => searchDedupKey x ≠ searchDedupKey y) := by
  refine ((sortBooks_perm books).pairwise_iff ?_).mpr h
  intro x y hxy he
  exact hxy he.symm

/-- The overlay never changes the title. -/
theorem overlayBook_title (dbFor : String → Option (Int × List (Int × String)))
    (b : SearchBook) : (overlayBook dbFor b).title = b.title := by
  cases hdb : dbFor b.googleBooksId with
  | none => simp [overlayBook, hdb]
  | some p =>
    rcases p with ⟨dbId, gs⟩
    by_cases hg : gs.isEmpty = true <;> simp [overlayBook, hdb, hg]

/-- The overlay never changes the authors. -/
theorem overlayBook_authors (dbFor : String → Option (Int × List (Int × String)))
    (b : SearchBook) : (overlayBook dbFor b).authors = b.authors := by
  cases hdb : dbFor b.googleBooksId with
  | none => simp [overlayBook, hdb]
  | some p =>
    rcases p with ⟨dbId, gs⟩
    by_cases hg : gs.isEmpty = true <;> simp [overlayBook, hdb, hg]

/-- The overlay never changes the dedup key. -/
theorem overlayBook_key (dbFor : String → Option (Int × List (Int × String)))
    (b : SearchBook) : searchDedupKey (overlayBook dbFor b) = searchDedupKey b := by
  rw [searchDedupKey, searchDedupKey, overlayBook_title, overlayBook_authors]

/-- C9: the search response contains no two entries with the same normalized
title+author key, and is strictly ordered by title then author: for any
earlier/later pair, the earlier entry has a strictly smaller title, or an
equal title and a strictly smaller author string (string comparison modelled
as code-point lexicographic `localeCompare`). -/
theorem c9_search_contract (dbFor : String → Option (Int × List (Int × String)))
    (filteredBooks : List SearchBook) :
    (searchResponse dbFor filteredBooks).Pairwise
      (fun a b => searchDedupKey a ≠ searchDedupKey b) ∧
    (searchResponse dbFor filteredBooks).Pairwise
      (fun a b => compareCharList a.title.data b.title.data = .lt ∨
        (a.title = b.title ∧ compareCharList a.authors.data b.authors.data = .lt)) := by
  have hkeys : (sortBooks (dedupBooks filteredBooks)).Pairwise
      (fun x y => searchDedupKey x ≠ searchDedupKey y) :=
    sortBooks_keys _ (dedupBooks_pairwise filteredBooks)
  have hsorted : (sortBooks (dedupBooks filteredBooks)).Pairwise
      (fun a b => searchCompare a b ≠ .gt) :=
    sortBooks_sorted _
  have hstrict : (sortBooks (dedupBooks filteredBooks)).Pairwise
      (fun a b => searchCompare a b = .lt) := by
    refine (hkeys.and hsorted).imp (fun {a b} hab => ?_)
    cases hcab : searchCompare a b with
    | lt => rfl
    | gt => exact absurd hcab hab.2
    | eq =>
      have hc := (searchCompare_eq_iff a b).mp hcab
      exact absurd (by rw [searchDedupKey, searchDedupKey, hc.1, hc.2]) hab.1
  have hresp : searchResponse dbFor filteredBooks =
      (sortBooks (dedupBooks filteredBooks)).map (overlayBook dbFor) := rfl
  rw [hresp]
  constructor
  · refine List.pairwise_map.mpr ?_
    refine hkeys.imp (fun {a b} hab => ?_)
    rw [overlayBook_key dbFor a, overlayBook_key dbFor b]
    exact hab
  · refine List.pairwise_map.mpr ?_
    refine hstrict.imp (fun {a b} hab => ?_)
    rw [overlayBook_title dbFor a, overlayBook_title dbFor b,
      overlayBook_authors dbFor a, overlayBook_authors dbFor b]
    rw [searchCompare] at hab
    by_cases ht : compareCharList a.title.data b.title.data = .eq
    · rw [if_pos ht] at hab
      right
      exact ⟨String.ext ((cll_eq_iff _ _).mp ht), hab⟩
    · rw [if_neg ht] at hab
      left
      exact hab

/-! ## H. The recommendation endpoint (`src/routes/recommendations.ts`)

The `GET /fetch/:userId` handler is embedded as a pure function of a request
environment: the rows the DB queries return and the batches the upstream
fetch returns are fields of the environment, and the handler's outward
actions (upstream fetch rounds, per-candidate scoring, persistence writes)
are collected as an effect list alongside the response. -/

/-- One `userGenre` row as `findMany({include: {genre: true}})` returns
it. -/
structure UserGenreRow where
  genreId : Int
  genre : GenreLite
deriving DecidableEq

/-- One shelf row (title and description may be null). -/
structure ShelfRow where
  googleBooksId : String
  title : Option String
  description : Option String
deriving DecidableEq

/-- The response body: the no-genres message object, a book array, or an
error object. -/
inductive RecBody where
  | message (text : String)
  | books (items : List CandidateBook)
  | error (text : String)
deriving DecidableEq

structure RecResponse where
  status : Nat
  body : RecBody
deriving DecidableEq

/-- The handler's outward effects, in program order. -/
inductive RecEffect where
  | fetchBooks (query : String)
  | scoreCandidate (googleBooksId : String)
  | persistGenres (googleBooksId : String) (genreIds : Finset Int)
deriving DecidableEq

/-- The request environment of the primary (ranked) handler. -/
structure RecEnv where
  userGenres : List UserGenreRow
  toRead : List ShelfRow
  finished : List ShelfRow
  seenGoogleIds : List (Option String)
  rawBooksFor : String → List CandidateBook
  allGenres : List GenreLite
  dbGenreIdsFor : String → List Int

/-- Lines 404–418: project a shelf to `ShelfBookLite` (null title and
description become `""`) and keep only rows with a truthy
`googleBooksId`. -/
def shelfLiteOf (rows : List ShelfRow) : List ShelfBookLite :=
  (rows.map (fun b =>
    (⟨b.googleBooksId, b.title.getD "", b.description.getD ""⟩ : ShelfBookLite))).filter
    (fun b => decide (b.googleBooksId ≠ ""))

/-- Lines 420–432: both shelves' ids plus every truthy seen
`ub.book?.googleBooksId`. -/
def excludeIdsOf (toReadLite finishedLite : List ShelfBookLite)
    (seenGoogleIds : List (Option String)) : Finset String :=
  (toReadLite.map (fun b => b.googleBooksId)).toFinset ∪
    (finishedLite.map (fun b => b.googleBooksId)).toFinset ∪
    (seenGoogleIds.filterMap (fun o =>
      match o with
      | some s => if s = "" then none else some s
      | none => none)).toFinset

def excludeIdsOfEnv (env : RecEnv) : Finset String :=
  excludeIdsOf (shelfLiteOf env.toRead) (shelfLiteOf env.finished) env.seenGoogleIds

/-- One inner iteration of the candidate loop (lines 458–515): skip a
missing (falsy) id, skip excluded ids, otherwise enter the fresh candidate
into the map or merge it with the colliding entry. -/
def candidateStep (excludeIds : Finset String) (gid : Int) (gname : String)
    (m : List (List Char × CandidateBook)) (book : CandidateBook) :
    List (List Char × CandidateBook) :=
  if book.googleBooksId = "" then m
  else if book.googleBooksId ∈ excludeIds then m
  else
    let candidate := freshCandidate book gid gname
    let key := normalizedCandidateKey candidate
    match mapGet m key with
    | none => mapSet m key candidate
    | some existingCandidate =>
      mapSet m key (mergeOnCollision existingCandidate candidate gid gname)

/-- The candidate aggregation loop (lines 450–516): one upstream batch per
preferred genre (`subject:${name}`), folded into the key-indexed map. -/
def aggregateCandidates (env : RecEnv) (excludeIds : Finset String) :
    List (List Char × CandidateBook) :=
  env.userGenres.foldl
    (fun m ug => (env.rawBooksFor ("subject:" ++ ug.genre.name)).foldl
      (candidateStep excludeIds ug.genre.id ug.genre.name) m) []

/-- Line 518: `Array.from(candidateMap.values())`. -/
def candidatesOf (env : RecEnv) : List CandidateBook :=
  (aggregateCandidates env (excludeIdsOfEnv env)).map (fun p => p.2)

/-- The fetch round performed for each preferred genre (line 456). -/
def fetchEffectsOf (env : RecEnv) : List RecEffect :=
  env.userGenres.map (fun ug => RecEffect.fetchBooks ("subject:" ++ ug.genre.name))

/-- Lines 544–619 applied to every candidate. -/
def scoredOf (env : RecEnv) : List ScoredCandidate :=
  (candidatesOf env).map (scoreCandidate
    (weightsFor (shelfLiteOf env.finished).length)
    ((env.userGenres.map (fun ug => ug.genreId)).toFinset)
    env.allGenres env.dbGenreIdsFor
    ((shelfLiteOf env.finished).map (fun b => tokenizeSet (shelfBookText b)))
    ((shelfLiteOf env.toRead).map (fun b => tokenizeSet (shelfBookText b))))

/-- Lines 621–622. -/
def topOf (env : RecEnv) : List ScoredCandidate :=
  rankedSelect (scoredOf env)

/-- Lines 640–649: DB genres united with inferred genres for one returned
candidate. -/
def persistSetFor (env : RecEnv) (c : CandidateBook) : Finset Int :=
  (env.dbGenreIdsFor c.googleBooksId).toFinset ∪
    (c.sourceGenreIds.toFinset ∪ deriveGenreIdsFromCategories c.categories env.allGenres)

/-- Lines 639–676: one write per returned candidate with a non-empty genre
set (`if (genreIdsToPersist.size === 0) continue`). -/
def persistEffectsOf (env : RecEnv) : List RecEffect :=
  (topOf env).filterMap (fun r =>
    if persistSetFor env r.candidate = ∅ then none
    else some (RecEffect.persistGenres r.candidate.googleBooksId
      (persistSetFor env r.candidate)))

/-- Line 679: `new Map(allGenres.map(g => [g.id, g.name]))`. -/
def genreNameMap (allGenres : List GenreLite) : List (Int × String) :=
  allGenres.foldl (fun m g => mapSet m g.id g.name) []

/-- Lines 681–692: the response row for one returned candidate — the
effective genre ids, deduplicated and sorted ascending, with their truthy
DB names. -/
def respBookOf (env : RecEnv) (r : ScoredCandidate) : CandidateBook :=
  let ids := r.genreIds.toFinset.sort (· ≤ ·)
  { r.candidate with
    sourceGenreIds := ids
    sourceGenreNames := ids.filterMap (fun gid =>
      match mapGet (genreNameMap env.allGenres) gid with
      | some n => if n = "" then none else some n
      | none => none) }

/-- The primary handler (lines 371–704): the no-genres guard answers 200
with a message object before any fetch, scoring or persistence; an empty
aggregated candidate set answers 200 with `[]` after the fetch rounds but
before scoring and persistence; otherwise the top 20 are scored, persisted
and returned. -/
def fetchRecommendationsHandler (env : RecEnv) : RecResponse × List RecEffect :=
  if env.userGenres.isEmpty then
    (⟨200, RecBody.message "User has no selected genres"⟩, [])
  else if (candidatesOf env).isEmpty then
    (⟨200, RecBody.books []⟩, fetchEffectsOf env)
  else
    (⟨200, RecBody.books ((topOf env).map (respBookOf env))⟩,
      fetchEffectsOf env ++
        (scoredOf env).map (fun r => RecEffect.scoreCandidate r.candidate.googleBooksId) ++
        persistEffectsOf env)

/-- The request environment of the round-robin variant: `startIndex` stands
for `Math.floor(Math.random() * genreIds.length)` (the handler reduces it
modulo the genre count). -/
structure RrEnv where
  userGenres : List UserGenreRow
  rawBooksFor : String → List CandidateBook
  dbBookIdFor : String → Option Int
  userHasBook : Int → Bool
  startIndex : Nat

/-- Lines 906–925: per-genre pool filtering — drop in-pool duplicates by
`googleBooksId`, and drop books the user already has a `userBook` row
for. -/
def rrFilterPool (env : RrEnv) (rawBooks : List CandidateBook) : List CandidateBook :=
  rawBooks.foldl (fun filtered book =>
    if (filtered.find? (fun b => decide (b.googleBooksId = book.googleBooksId))).isSome
    then filtered
    else
      match env.dbBookIdFor book.googleBooksId with
      | some bookId =>
        if env.userHasBook bookId then filtered else filtered ++ [book]
      | none => filtered ++ [book]) []

/-- The round-robin loop (lines 937–953), fuelled: each iteration either
appends a book or removes a genre from the rotation, so any fuel above
`20 + #genres + Σ pool sizes` is enough for the fuel never to run out. -/
def rrLoop : Nat → List (Int × List CandidateBook) → List Int → Nat →
    List CandidateBook → List CandidateBook
  | 0, _, _, _, out => out
  | fuel + 1, pools, genreIds, genreIndex, out =>
    if out.length < 20 ∧ genreIds ≠ [] then
      let currentGenreId := genreIds.getD genreIndex 0
      let pool := (mapGet pools currentGenreId).getD []
      let pool2 := pool.drop 1
      let out2 := out ++ pool.take 1
      let pools2 := mapSet pools currentGenreId pool2
      if pool2 = [] then
        let genreIds2 := genreIds.eraseIdx genreIndex
        if genreIds2 = [] then out2
        else rrLoop fuel pools2 genreIds2 (genreIndex % genreIds2.length) out2
      else rrLoop fuel pools2 genreIds ((genreIndex + 1) % genreIds.length) out2
    else out

/-- The round-robin variant of `GET /fetch/:userId` (lines 888–972): the
same no-genres guard (lines 898–900), then pool building (one fetch per
genre), then the round-robin selection. -/
def rrHandler (env : RrEnv) : RecResponse × List RecEffect :=
  if env.userGenres.isEmpty then
    (⟨200, RecBody.message "User has no selected genres"⟩, [])
  else
    let pools := env.userGenres.foldl (fun m ug =>
      mapSet m ug.genre.id
        (rrFilterPool env (env.rawBooksFor ("subject:" ++ ug.genre.name)))) []
    let genreIds := env.userGenres.map (fun ug => ug.genre.id)
    let fuel := 21 + genreIds.length +
      (pools.map (fun p => p.2.length)).sum
    (⟨200, RecBody.books
        (rrLoop fuel pools genreIds (env.startIndex % genreIds.length) [])⟩,
      env.userGenres.map (fun ug => RecEffect.fetchBooks ("subject:" ++ ug.genre.name)))

/-- C10: with no preferred genres, both handler variants answer HTTP 200
with the object `{"message": "User has no selected genres"}` — not a book
array — and perform no upstream fetches, no scoring and no persistence
writes (the effect list is empty); with at least one preferred genre but an
empty aggregated candidate set, the primary handler answers HTTP 200 with
the empty array, its effects being exactly the per-genre fetch rounds (no
scoring, no persistence). -/
theorem c10_endpoint_guards (env : RecEnv) (rrEnv : RrEnv) :
    (env.userGenres = [] →
      fetchRecommendationsHandler env =
        (⟨200, RecBody.message "User has no selected genres"⟩, [])) ∧
    (env.userGenres ≠ [] → candidatesOf env = [] →
      fetchRecommendationsHandler env =
        (⟨200, RecBody.books []⟩, fetchEffectsOf env)) ∧
    (rrEnv.userGenres = [] →
      rrHandler rrEnv = (⟨200, RecBody.message "User has no selected genres"⟩, [])) := by
  refine ⟨?_, ?_, ?_⟩
  · intro h
    rw [fetchRecommendationsHandler, if_pos (by rw [h]; rfl)]
  · intro hne hempty
    have h1 : ¬ env.userGenres.isEmpty = true := by
      cases henv : env.userGenres with
      | nil => exact absurd henv hne
      | cons a l =>
        intro hh
        have hh2 : false = true := hh
        exact absurd hh2 (by decide)
    rw [fetchRecommendationsHandler, if_neg h1, if_pos (by rw [hempty]; rfl)]
  · intro h
    rw [rrHandler, if_pos (by rw [h]; rfl)]
